import Mathlib

/-!
# Verification of the satfire cluster pipeline against its specification

This file gives a shallow embedding, in Lean 4, of the parts of the satfire
repository that the checked claims talk about:

* the geometric kernel of src/pixel.rs (Pixel, approx_equal, contains_coord,
  overlap, is_adjacent_to, is_adjacent_to_or_overlaps, centroids);
* the binary codec of src/pixel.rs (PixelList::binary_serialize and
  PixelList::binary_deserialize, Pixel::write_bytes and Pixel::read_bytes);
* the connected-component cluster builder of src/cluster.rs
  (Cluster::from_fire_points);
* the keep filter and the directory-prune filter of src/bin/findfire.rs
  (is_cluster_a_keeper, create_standard_dir_filter).

Modelling conventions.  Machine f64 values that take part in exact geometry
are embedded as exact rationals; exact rational arithmetic stands in for
floating point arithmetic.  To keep every definition executable inside the
kernel, rationals are represented by the computable type Q below (an integer
numerator with a positive denominator), which is interpreted into the
mathematical rationals by Q.toRat; all algebraic reasoning happens on the
interpretation.  Where IEEE special values matter (reductions that skip NaN
and infinities, the 0.0/0.0 division in PixelList::centroid, f64 bit
patterns flowing through the codec) the type F64 models a floating point
value as either a finite rational or one of the special values.  Fallible
operations (the unwrap inside Pixel::centroid) are embedded with Option,
where none models a panic.

The repository files geo.rs, satellite.rs and firepoint.rs are not present
under src/; the primitives they provide (Coord.is_close, Line.intersect,
BoundingBox predicates, triangle_centroid, the satellite and sector token
recognizers, the FirePoint record) are modelled from the specification text
and are marked with a doc comment starting with the words Modelled from the
spec.
-/


/-! ## A computable rational number type

The denominator is stored minus one, so it is positive by construction and
the type carries no proof fields.  Values are not kept normalized; equality
of values is never tested structurally, only through comparisons. -/

/-- A computable rational: numerator n and denominator dm + 1. -/
structure Q where
  n : ℤ
  dm : ℕ
deriving DecidableEq, Repr

namespace Q

/-- The (always positive) denominator. -/
def den (q : Q) : ℤ := (q.dm : ℤ) + 1

/-- Interpretation into the mathematical rationals. -/
def toRat (q : Q) : ℚ := (q.n : ℚ) / ((q.dm : ℚ) + 1)

instance : OfNat Q k := ⟨⟨k, 0⟩⟩

instance : Add Q := ⟨fun a b => ⟨a.n * b.den + b.n * a.den, (a.dm + 1) * (b.dm + 1) - 1⟩⟩

instance : Sub Q := ⟨fun a b => ⟨a.n * b.den - b.n * a.den, (a.dm + 1) * (b.dm + 1) - 1⟩⟩

instance : Mul Q := ⟨fun a b => ⟨a.n * b.n, (a.dm + 1) * (b.dm + 1) - 1⟩⟩

instance : Neg Q := ⟨fun a => ⟨-a.n, a.dm⟩⟩

/-- Division.  The divisor is nonzero on every path the embedded code
reaches a division on; a zero divisor gives the junk value 0. -/
instance : Div Q := ⟨fun a b =>
  if 0 < b.n then ⟨a.n * b.den, (a.dm + 1) * b.n.toNat - 1⟩
  else if b.n < 0 then ⟨-(a.n * b.den), (a.dm + 1) * (-b.n).toNat - 1⟩
  else 0⟩

/-- Absolute value. -/
def qabs (a : Q) : Q := ⟨|a.n|, a.dm⟩

instance : LT Q := ⟨fun a b => a.n * b.den < b.n * a.den⟩

instance : LE Q := ⟨fun a b => a.n * b.den ≤ b.n * a.den⟩

instance (a b : Q) : Decidable (a < b) := inferInstanceAs (Decidable (_ < _))

instance (a b : Q) : Decidable (a ≤ b) := inferInstanceAs (Decidable (_ ≤ _))

instance : Min Q := ⟨fun a b => if a ≤ b then a else b⟩

instance : Max Q := ⟨fun a b => if a ≤ b then b else a⟩

/-- Test for the value zero; correct because the denominator is positive. -/
def isZero (q : Q) : Bool := q.n == 0

theorem den_cast_pos (q : Q) : (0 : ℚ) < ((q.dm : ℚ) + 1) := by positivity

theorem den_cast_ne (q : Q) : ((q.dm : ℚ) + 1) ≠ 0 := ne_of_gt (den_cast_pos q)

/-- Cast helper for the denominator stored minus one. -/
theorem cast_pred_add_one {m : ℕ} (h : 1 ≤ m) : ((m - 1 : ℕ) : ℚ) + 1 = (m : ℚ) := by
  have h2 : ((m - 1 + 1 : ℕ) : ℚ) = (m : ℚ) := by rw [Nat.sub_add_cancel h]
  push_cast at h2
  linarith

theorem cast_den_mul (x y : ℕ) :
    (((x + 1) * (y + 1) - 1 : ℕ) : ℚ) + 1 = ((x : ℚ) + 1) * ((y : ℚ) + 1) := by
  rw [cast_pred_add_one (Nat.one_le_iff_ne_zero.mpr
    (Nat.mul_ne_zero (Nat.succ_ne_zero x) (Nat.succ_ne_zero y)))]
  push_cast
  ring

theorem toRat_mk (a : ℤ) (d : ℕ) : toRat ⟨a, d⟩ = (a : ℚ) / ((d : ℚ) + 1) := rfl

theorem toRat_ofNat (k : ℕ) : toRat (OfNat.ofNat k) = (k : ℚ) := by
  show toRat ⟨(k : ℤ), 0⟩ = _
  rw [toRat_mk]
  norm_num

theorem toRat_add (a b : Q) : toRat (a + b) = toRat a + toRat b := by
  show toRat ⟨a.n * b.den + b.n * a.den, (a.dm + 1) * (b.dm + 1) - 1⟩ = _
  rw [toRat_mk, cast_den_mul, toRat, toRat, div_add_div _ _ (den_cast_ne a) (den_cast_ne b)]
  unfold den
  push_cast
  ring_nf

theorem toRat_sub (a b : Q) : toRat (a - b) = toRat a - toRat b := by
  show toRat ⟨a.n * b.den - b.n * a.den, (a.dm + 1) * (b.dm + 1) - 1⟩ = _
  rw [toRat_mk, cast_den_mul, toRat, toRat, div_sub_div _ _ (den_cast_ne a) (den_cast_ne b)]
  unfold den
  push_cast
  ring_nf

theorem toRat_mul (a b : Q) : toRat (a * b) = toRat a * toRat b := by
  show toRat ⟨a.n * b.n, (a.dm + 1) * (b.dm + 1) - 1⟩ = _
  rw [toRat_mk, cast_den_mul, toRat, toRat, div_mul_div_comm]
  push_cast
  ring

theorem toRat_neg (a : Q) : toRat (-a) = -toRat a := by
  show toRat ⟨-a.n, a.dm⟩ = _
  rw [toRat_mk, toRat]
  push_cast
  ring

theorem toRat_qabs (a : Q) : toRat (qabs a) = |toRat a| := by
  show toRat ⟨|a.n|, a.dm⟩ = _
  rw [toRat_mk, toRat, abs_div, abs_of_pos (den_cast_pos a), Int.cast_abs]

theorem toRat_div (a b : Q) (hb : toRat b ≠ 0) : toRat (a / b) = toRat a / toRat b := by
  have hbn : b.n ≠ 0 := by
    intro h
    apply hb
    rw [toRat, h]
    simp
  show toRat (if 0 < b.n then _ else if b.n < 0 then _ else _) = _
  have hbq : (b.n : ℚ) ≠ 0 := Int.cast_ne_zero.mpr hbn
  rcases lt_trichotomy 0 b.n with hpos | hz | hneg
  · rw [if_pos hpos, toRat_mk]
    have hcast : ((b.n.toNat : ℕ) : ℚ) = (b.n : ℚ) := by
      exact_mod_cast congrArg (Int.cast : ℤ → ℚ) (Int.toNat_of_nonneg (le_of_lt hpos))
    have h1 : (((a.dm + 1) * b.n.toNat - 1 : ℕ) : ℚ) + 1 = ((a.dm : ℚ) + 1) * (b.n : ℚ) := by
      rw [cast_pred_add_one]
      · push_cast
        push_cast at hcast
        rw [hcast]
      · have h2 : 1 ≤ b.n.toNat := by omega
        calc 1 = 1 * 1 := by ring
          _ ≤ (a.dm + 1) * b.n.toNat := Nat.mul_le_mul (by omega) h2
    rw [h1]
    unfold toRat den
    push_cast
    field_simp
  · omega
  · rw [if_neg (by omega), if_pos hneg, toRat_mk]
    have hcast : (((-b.n).toNat : ℕ) : ℚ) = -(b.n : ℚ) := by
      have h3 : ((-b.n).toNat : ℤ) = -b.n := Int.toNat_of_nonneg (by omega)
      exact_mod_cast congrArg (Int.cast : ℤ → ℚ) h3
    have h1 : (((a.dm + 1) * (-b.n).toNat - 1 : ℕ) : ℚ) + 1 =
        ((a.dm : ℚ) + 1) * (-(b.n : ℚ)) := by
      rw [cast_pred_add_one]
      · push_cast
        push_cast at hcast
        rw [hcast]
      · have h2 : 1 ≤ (-b.n).toNat := by omega
        calc 1 = 1 * 1 := by ring
          _ ≤ (a.dm + 1) * (-b.n).toNat := Nat.mul_le_mul (by omega) h2
    rw [h1]
    unfold toRat den
    push_cast
    field_simp

theorem lt_iff (a b : Q) : a < b ↔ toRat a < toRat b := by
  show a.n * b.den < b.n * a.den ↔ _
  rw [toRat, toRat, div_lt_div_iff (den_cast_pos a) (den_cast_pos b)]
  unfold den
  constructor <;> intro h <;> exact_mod_cast h

theorem le_iff (a b : Q) : a ≤ b ↔ toRat a ≤ toRat b := by
  show a.n * b.den ≤ b.n * a.den ↔ _
  rw [toRat, toRat, div_le_div_iff (den_cast_pos a) (den_cast_pos b)]
  unfold den
  constructor <;> intro h <;> exact_mod_cast h

theorem isZero_iff (a : Q) : isZero a = true ↔ toRat a = 0 := by
  unfold isZero toRat
  have h := den_cast_ne a
  constructor
  · intro hz
    have : a.n = 0 := by simpa using hz
    rw [this]
    simp
  · intro hz
    rw [div_eq_zero_iff] at hz
    rcases hz with hz | hz
    · simpa using Int.cast_eq_zero.mp hz
    · exact absurd hz h

theorem toRat_min (a b : Q) : toRat (min a b) = min (toRat a) (toRat b) := by
  show toRat (if a ≤ b then a else b) = _
  by_cases h : a ≤ b
  · rw [if_pos h, min_eq_left ((le_iff a b).mp h)]
  · rw [if_neg h, min_eq_right (le_of_lt (not_le.mp ((le_iff a b).not.mp h)))]

theorem toRat_max (a b : Q) : toRat (max a b) = max (toRat a) (toRat b) := by
  show toRat (if a ≤ b then b else a) = _
  by_cases h : a ≤ b
  · rw [if_pos h, max_eq_right ((le_iff a b).mp h)]
  · rw [if_neg h, max_eq_left (le_of_lt (not_le.mp ((le_iff a b).not.mp h)))]

end Q

/-! ## A model of IEEE-754 double values -/

/-- Model of an IEEE-754 double value: a finite rational or a special value.
Exact rational arithmetic stands in for rounding; the special values follow
IEEE semantics where the embedded code depends on them. -/
inductive F64 where
  | fin (q : Q)
  | pinf
  | ninf
  | nan
deriving DecidableEq, Repr

namespace F64

/-- Model of f64::is_infinite. -/
def isInfB : F64 → Bool
  | pinf => true
  | ninf => true
  | _ => false

/-- Model of f64::is_nan. -/
def isNanB : F64 → Bool
  | nan => true
  | _ => false

/-- Model of f64::max as used by the folds of pixel.rs: a NaN operand is
ignored in favor of the other operand, infinities dominate finite values. -/
def fmax : F64 → F64 → F64
  | nan, b => b
  | a, nan => a
  | pinf, _ => pinf
  | _, pinf => pinf
  | ninf, b => b
  | a, ninf => a
  | fin a, fin b => fin (max a b)

/-- Model of the IEEE strict less-than on doubles: any comparison involving
NaN is false, negative infinity is below everything else, positive infinity
above everything else. -/
def flt : F64 → F64 → Bool
  | nan, _ => false
  | _, nan => false
  | ninf, ninf => false
  | ninf, _ => true
  | _, ninf => false
  | pinf, _ => false
  | fin _, pinf => true
  | fin a, fin b => decide (a < b)

/-- Model of IEEE division for the cases reachable from PixelList::centroid:
a finite value divided by finite zero gives NaN when the numerator is zero
and a signed infinity otherwise.  Signed zero is not modelled. -/
def fdiv : F64 → F64 → F64
  | nan, _ => nan
  | _, nan => nan
  | pinf, pinf => nan
  | pinf, ninf => nan
  | ninf, pinf => nan
  | ninf, ninf => nan
  | pinf, fin _ => pinf
  | ninf, fin _ => ninf
  | fin _, pinf => fin 0
  | fin _, ninf => fin 0
  | fin a, fin b =>
    if Q.isZero b then (if Q.isZero a then nan else if (0 : Q) < a then pinf else ninf)
    else fin (a / b)

/-- Model of f64 addition: NaN propagates, opposite infinities give NaN. -/
def fadd : F64 → F64 → F64
  | nan, _ => nan
  | _, nan => nan
  | pinf, ninf => nan
  | ninf, pinf => nan
  | pinf, _ => pinf
  | _, pinf => pinf
  | ninf, _ => ninf
  | _, ninf => ninf
  | fin a, fin b => fin (a + b)

end F64

/-! ## Geometry primitives (geo.rs, modelled from the spec) -/

/-- Coordinate in decimal degrees, as in geo.rs.  The corner coordinates
that take part in the pixel geometry are embedded as exact rationals. -/
structure Coord where
  lat : Q
  lon : Q
deriving DecidableEq, Repr

/-- Modelled from the spec: Coord equality is approximate within a
caller-supplied epsilon (geo.rs is not under src/); both components must be
within eps. -/
def isClose (a b : Coord) (eps : Q) : Bool :=
  decide (Q.qabs (a.lat - b.lat) < eps) && decide (Q.qabs (a.lon - b.lon) < eps)

/-- An ordered pair of coordinates, as in geo.rs.  The field names start and
stop stand for the start and end fields of the source. -/
structure Line where
  start : Coord
  stop : Coord
deriving DecidableEq, Repr

/-- Result of a line intersection, as in geo.rs. -/
structure IntersectResult where
  intersection : Coord
  intersect_is_endpoints : Bool
deriving DecidableEq, Repr

/-- The intersection determinant of the two segment directions. -/
def interDet (l1 l2 : Line) : Q :=
  (l1.stop.lon - l1.start.lon) * (l2.stop.lat - l2.start.lat) -
    (l1.stop.lat - l1.start.lat) * (l2.stop.lon - l2.start.lon)

/-- The parameter of the intersection along the first segment. -/
def interT (l1 l2 : Line) : Q :=
  ((l2.start.lon - l1.start.lon) * (l2.stop.lat - l2.start.lat) -
      (l2.start.lat - l1.start.lat) * (l2.stop.lon - l2.start.lon)) / interDet l1 l2

/-- The parameter of the intersection along the second segment. -/
def interU (l1 l2 : Line) : Q :=
  ((l2.start.lon - l1.start.lon) * (l1.stop.lat - l1.start.lat) -
      (l2.start.lat - l1.start.lat) * (l1.stop.lon - l1.start.lon)) / interDet l1 l2

/-- Modelled from the spec: planar segment intersection treating (lon, lat)
as Cartesian, solved in parameter space (t, u).  No intersection when the
determinant vanishes (exact arithmetic stands in for the near-zero test) or
when t or u falls outside [0, 1] beyond the tolerance eps.  The
intersect_is_endpoints flag is set when the intersection lies within eps of
an endpoint of both segments, which is the convention forced by the
boundary behavior the unit tests of pixel.rs require (a coordinate on the
middle of an edge is not contained). -/
def lineIntersect (l1 l2 : Line) (eps : Q) : Option IntersectResult :=
  if Q.isZero (interDet l1 l2) then none
  else if interT l1 l2 < -eps ∨ 1 + eps < interT l1 l2 ∨
      interU l1 l2 < -eps ∨ 1 + eps < interU l1 l2 then none
  else
    some ⟨⟨l1.start.lat + interT l1 l2 * (l1.stop.lat - l1.start.lat),
           l1.start.lon + interT l1 l2 * (l1.stop.lon - l1.start.lon)⟩,
          decide (min (interT l1 l2) (1 - interT l1 l2) < eps ∧
            min (interU l1 l2) (1 - interU l1 l2) < eps)⟩

/-- A proper crossing: the two segments intersect and the intersection is
not classified as an endpoint touch.  This is the combination every caller
of Line::intersect in pixel.rs tests for. -/
def properCross (l1 l2 : Line) (eps : Q) : Bool :=
  match lineIntersect l1 l2 eps with
  | none => false
  | some r => !r.intersect_is_endpoints

/-- Modelled from the spec: triangle centroid is the arithmetic mean of the
three coordinates. -/
def triangleCentroid (a b c : Coord) : Coord :=
  ⟨(a.lat + b.lat + c.lat) / 3, (a.lon + b.lon + c.lon) / 3⟩

/-- Bounding box from geo.rs: lower-left and upper-right corners. -/
structure BoundingBox where
  ll : Coord
  ur : Coord
deriving DecidableEq, Repr

/-- Modelled from the spec: coordinate-in-box predicate with tolerance eps
on every side. -/
def bboxContainsCoord (bb : BoundingBox) (c : Coord) (eps : Q) : Bool :=
  decide (bb.ll.lat - eps ≤ c.lat) && decide (c.lat ≤ bb.ur.lat + eps) &&
  decide (bb.ll.lon - eps ≤ c.lon) && decide (c.lon ≤ bb.ur.lon + eps)

/-- Modelled from the spec: box-overlap predicate with tolerance eps. -/
def bboxOverlap (a b : BoundingBox) (eps : Q) : Bool :=
  decide (a.ll.lat ≤ b.ur.lat + eps) && decide (b.ll.lat ≤ a.ur.lat + eps) &&
  decide (a.ll.lon ≤ b.ur.lon + eps) && decide (b.ll.lon ≤ a.ur.lon + eps)

/-! ## Pixel (src/pixel.rs) -/

/-- The coordinates describing the area of a pixel viewed from a GOES
satellite, from src/pixel.rs.  The scalar attributes are F64 values; the
mask and data quality flags are the i16 codes of satellite.rs embedded as
integers. -/
structure Pixel where
  ul : Coord
  ll : Coord
  lr : Coord
  ur : Coord
  power : F64
  area : F64
  temperature : F64
  scanAngle : F64
  maskFlag : ℤ
  dataQualityFlag : ℤ
deriving DecidableEq, Repr

namespace Pixel

/-- Pixel::bounding_box from src/pixel.rs: componentwise min and max over
the four corners, in the min and max chain order of the source. -/
def boundingBox (p : Pixel) : BoundingBox :=
  let minLat := min (min (min p.ll.lat p.lr.lat) p.ul.lat) p.ur.lat
  let maxLat := max (max (max p.ll.lat p.lr.lat) p.ul.lat) p.ur.lat
  let minLon := min (min (min p.ll.lon p.lr.lon) p.ul.lon) p.ur.lon
  let maxLon := max (max (max p.ll.lon p.lr.lon) p.ul.lon) p.ur.lon
  ⟨⟨minLat, minLon⟩, ⟨maxLat, maxLon⟩⟩

/-- The four edges of a pixel in the order used throughout src/pixel.rs. -/
def edges (p : Pixel) : List Line :=
  [⟨p.ul, p.ur⟩, ⟨p.ur, p.lr⟩, ⟨p.lr, p.ll⟩, ⟨p.ll, p.ul⟩]

/-- The four corners of a pixel in the order used throughout src/pixel.rs. -/
def corners (p : Pixel) : List Coord :=
  [p.ul, p.ur, p.lr, p.ll]

/-- Pixel::contains_coord from src/pixel.rs: false when the bounding box
excludes the coordinate; otherwise the coordinate is contained exactly when
no segment from it to a corner properly crosses an edge. -/
def containsCoord (p : Pixel) (c : Coord) (eps : Q) : Bool :=
  bboxContainsCoord p.boundingBox c eps &&
  !(p.edges.any fun pl =>
      ([⟨c, p.ul⟩, ⟨c, p.ur⟩, ⟨c, p.ll⟩, ⟨c, p.lr⟩] : List Line).any fun cl =>
        properCross pl cl eps)

/-- Pixel::approx_equal from src/pixel.rs: corner-wise closeness. -/
def approxEqual (p q : Pixel) (eps : Q) : Bool :=
  isClose p.ul q.ul eps && isClose p.ur q.ur eps &&
  isClose p.lr q.lr eps && isClose p.ll q.ll eps

/-- Pixel::overlap from src/pixel.rs: true on approximate equality, false
on disjoint bounding boxes, then true when some pair of edges properly
crosses or some corner of the receiver is contained in the argument.  The
source deliberately omits the reverse corner-containment check. -/
def overlap (p q : Pixel) (eps : Q) : Bool :=
  approxEqual p q eps ||
  (bboxOverlap p.boundingBox q.boundingBox eps &&
    ((p.edges.any fun sl => q.edges.any fun ol => properCross sl ol eps) ||
     p.corners.any fun c => q.containsCoord c eps))

/-- Count of eps-close corner pairs, the num_close_coords quantity of
Pixel::is_adjacent_to, written out over the fixed 4 by 4 loop. -/
def closeCnt (p q : Pixel) (eps : Q) : ℕ :=
  (if isClose p.ul q.ul eps then 1 else 0) + (if isClose p.ul q.ur eps then 1 else 0) +
  (if isClose p.ul q.lr eps then 1 else 0) + (if isClose p.ul q.ll eps then 1 else 0) +
  (if isClose p.ur q.ul eps then 1 else 0) + (if isClose p.ur q.ur eps then 1 else 0) +
  (if isClose p.ur q.lr eps then 1 else 0) + (if isClose p.ur q.ll eps then 1 else 0) +
  (if isClose p.lr q.ul eps then 1 else 0) + (if isClose p.lr q.ur eps then 1 else 0) +
  (if isClose p.lr q.lr eps then 1 else 0) + (if isClose p.lr q.ll eps then 1 else 0) +
  (if isClose p.ll q.ul eps then 1 else 0) + (if isClose p.ll q.ur eps then 1 else 0) +
  (if isClose p.ll q.lr eps then 1 else 0) + (if isClose p.ll q.ll eps then 1 else 0)

/-- The self_close flag of Pixel::is_adjacent_to: the given corner of the
receiver is close to some corner of the argument. -/
def closeToSome (a : Coord) (q : Pixel) (eps : Q) : Bool :=
  isClose a q.ul eps || isClose a q.ur eps || isClose a q.lr eps || isClose a q.ll eps

/-- The other_close flag of Pixel::is_adjacent_to: some corner of the
receiver is close to the given corner of the argument, with the argument
order of the source comparisons preserved. -/
def someCloseTo (p : Pixel) (b : Coord) (eps : Q) : Bool :=
  isClose p.ul b eps || isClose p.ur b eps || isClose p.lr b eps || isClose p.ll b eps

/-- The containment sweep of Pixel::is_adjacent_to: some corner that is not
close to any corner of the other pixel is contained in the other pixel, in
either direction. -/
def nonCloseContained (p q : Pixel) (eps : Q) : Bool :=
  (!closeToSome p.ul q eps && q.containsCoord p.ul eps) ||
  (!closeToSome p.ur q eps && q.containsCoord p.ur eps) ||
  (!closeToSome p.lr q eps && q.containsCoord p.lr eps) ||
  (!closeToSome p.ll q eps && q.containsCoord p.ll eps) ||
  (!someCloseTo p q.ul eps && p.containsCoord q.ul eps) ||
  (!someCloseTo p q.ur eps && p.containsCoord q.ur eps) ||
  (!someCloseTo p q.lr eps && p.containsCoord q.lr eps) ||
  (!someCloseTo p q.ll eps && p.containsCoord q.ll eps)

/-- Pixel::centroid from src/pixel.rs: intersection of the two diagonal
centroid lines of the quadrilateral, at the fixed tolerance 1.0e-30 of the
source.  The source unwraps the intersection result; none models the panic
of that unwrap on degenerate input. -/
def centroid (p : Pixel) : Option Coord :=
  let t1 := triangleCentroid p.ul p.ll p.lr
  let t2 := triangleCentroid p.ul p.ur p.lr
  let t3 := triangleCentroid p.ul p.ll p.ur
  let t4 := triangleCentroid p.lr p.ur p.ll
  (lineIntersect ⟨t1, t2⟩ ⟨t3, t4⟩ ((1 : Q) / (1000000000000000000000000000000 : Q))).map
    (·.intersection)

/-- Pixel::is_adjacent_to from src/pixel.rs.  The value none models the
panic of the centroid unwrap; every other path returns the boolean of the
source. -/
def isAdjacentTo (p q : Pixel) (eps : Q) : Option Bool :=
  if approxEqual p q eps then some false
  else if !bboxOverlap p.boundingBox q.boundingBox eps then some false
  else if !(decide (1 ≤ closeCnt p q eps ∧ closeCnt p q eps ≤ 2)) then some false
  else if nonCloseContained p q eps then some false
  else
    match p.centroid with
    | none => none
    | some cp =>
      if q.containsCoord cp eps then some false
      else
        match q.centroid with
        | none => none
        | some cq => some (!p.containsCoord cq eps)

/-- Pixel::is_adjacent_to_or_overlaps from src/pixel.rs: the short-circuit
fast path (bounding boxes, two or more close corner pairs, a corner of one
pixel contained in the other) followed by the fallback disjunction of
overlap and is_adjacent_to, with the short-circuit of the source
preserved. -/
def isAdjacentToOrOverlaps (p q : Pixel) (eps : Q) : Option Bool :=
  if !bboxOverlap p.boundingBox q.boundingBox eps then some false
  else if 1 < closeCnt p q eps then some true
  else if p.corners.any fun c => q.containsCoord c eps then some true
  else if q.corners.any fun c => p.containsCoord c eps then some true
  else if overlap p q eps then some true
  else isAdjacentTo p q eps

end Pixel

/-! ## PixelList reductions and the keep filter (src/pixel.rs, findfire.rs) -/

/-- PixelList::maximum_scan_angle from src/pixel.rs: fold of f64::max over
the scan angles, skipping infinite and NaN values, starting from negative
infinity. -/
def maximumScanAngle (l : List Pixel) : F64 :=
  ((l.filter fun p => !F64.isInfB p.scanAngle && !F64.isNanB p.scanAngle).map
      fun p => p.scanAngle).foldl F64.fmax F64.ninf

/-- The MAX_SCAN_ANGLE constant of src/bin/findfire.rs, 8.3 degrees. -/
def maxScanAngleLimit : Q := (83 : Q) / (10 : Q)

/-- The mask-flag match of is_cluster_a_keeper in src/bin/findfire.rs.  The
codes are the good, saturated, cloud contaminated, high probability and
medium probability fire pixels, with and without temporal filtering. -/
def maskKeep (m : ℤ) : Bool :=
  m == 10 || m == 11 || m == 12 || m == 13 || m == 14 ||
  m == 30 || m == 31 || m == 32 || m == 33 || m == 34

/-- is_cluster_a_keeper from src/bin/findfire.rs, expressed on the member
pixel list of the cluster.  Modelled from the spec: the Cluster type of the
library is not under src/; its pixels accessor yields the member PixelList
and its max_scan_angle is the PixelList maximum_scan_angle reduction. -/
def isClusterAKeeper (pixels : List Pixel) : Bool :=
  (pixels.any fun p => maskKeep p.maskFlag) &&
  F64.flt (maximumScanAngle pixels) (F64.fin maxScanAngleLimit)

/-- PixelList::centroid from src/pixel.rs (impl Geo for PixelList): sum the
member pixel centroids and divide both components by the length.  A member
whose centroid panics propagates the panic (none); on the empty list the
division is IEEE 0.0 / 0.0. -/
def pixelListCentroid (l : List Pixel) : Option (F64 × F64) :=
  (l.foldl
      (fun acc p =>
        match acc, p.centroid with
        | some s, some c => some (s.1 + c.lat, s.2 + c.lon)
        | _, _ => none)
      (some ((0 : Q), (0 : Q)))).map
    fun s =>
      (F64.fdiv (F64.fin s.1) (F64.fin ⟨(l.length : ℤ), 0⟩),
       F64.fdiv (F64.fin s.2) (F64.fin ⟨(l.length : ℤ), 0⟩))

/-! ## Binary codec (src/pixel.rs) -/

/-- Bit-pattern view of a Pixel as the codec reads and writes it: ten 64-bit
fields (the corner coordinates in write order and the four scalar
attributes) and the two 16-bit flag fields.  The codec moves bit patterns
and never interprets them. -/
structure PixelBits where
  ulLat : ℕ
  ulLon : ℕ
  llLat : ℕ
  llLon : ℕ
  lrLat : ℕ
  lrLon : ℕ
  urLat : ℕ
  urLon : ℕ
  power : ℕ
  area : ℕ
  temperature : ℕ
  scanAngle : ℕ
  maskFlag : ℕ
  dataQualityFlag : ℕ
deriving DecidableEq, Repr

/-- Little-endian byte encoding with a fixed width, modelling
to_le_bytes. -/
def leBytes : ℕ → ℕ → List ℕ
  | 0, _ => []
  | k + 1, v => v % 256 :: leBytes k (v / 256)

/-- Little-endian byte decoding, modelling from_le_bytes. -/
def fromLeBytes : List ℕ → ℕ
  | [] => 0
  | b :: rest => b + 256 * fromLeBytes rest

/-- Pixel::write_bytes from src/pixel.rs: the corner coordinates ul, ll,
lr, ur (latitude then longitude, 8 little-endian bytes each), then power,
area, temperature and scan_angle, then the two flags as 2 little-endian
bytes each. -/
def pixelWriteBytes (p : PixelBits) : List ℕ :=
  leBytes 8 p.ulLat ++ leBytes 8 p.ulLon ++
  leBytes 8 p.llLat ++ leBytes 8 p.llLon ++
  leBytes 8 p.lrLat ++ leBytes 8 p.lrLon ++
  leBytes 8 p.urLat ++ leBytes 8 p.urLon ++
  leBytes 8 p.power ++ leBytes 8 p.area ++
  leBytes 8 p.temperature ++ leBytes 8 p.scanAngle ++
  leBytes 2 p.maskFlag ++ leBytes 2 p.dataQualityFlag

/-- PixelList::binary_serialize from src/pixel.rs: the 8 little-endian
bytes of the length (usize on a 64-bit target) followed by the bytes of
each pixel appended in list order to the output vector. -/
def binarySerialize (l : List PixelBits) : List ℕ :=
  l.foldl (fun out p => out ++ pixelWriteBytes p) (leBytes 8 l.length)

/-- The per-pixel record layout as the specification states it in the
external interface section: the eight corner doubles in the order ul.lat,
ul.lon, ll.lat, ll.lon, lr.lat, lr.lon, ur.lat, ur.lon, then power, area,
temperature, scan_angle, then mask_flag and data_quality_flag as two-byte
integers, with no padding and no per-pixel length prefix.  The record
holds twelve doubles and two two-byte integers, hence 100 bytes; the
specification text miscounts this as 8 x 10 + 2 x 2 = 84. -/
def specPixelRecord (p : PixelBits) : List ℕ :=
  leBytes 8 p.ulLat ++ leBytes 8 p.ulLon ++
  leBytes 8 p.llLat ++ leBytes 8 p.llLon ++
  leBytes 8 p.lrLat ++ leBytes 8 p.lrLon ++
  leBytes 8 p.urLat ++ leBytes 8 p.urLon ++
  leBytes 8 p.power ++ leBytes 8 p.area ++
  leBytes 8 p.temperature ++ leBytes 8 p.scanAngle ++
  leBytes 2 p.maskFlag ++ leBytes 2 p.dataQualityFlag

/-- The blob layout as the specification states it: a u64 little-endian
count followed by the 84-byte records. -/
def specBlob (l : List PixelBits) : List ℕ :=
  leBytes 8 l.length ++ l.foldr (fun p acc => specPixelRecord p ++ acc) []

/-- Model of Read::read_exact with the error ignored, as the codec of
src/pixel.rs does with a slice reader: up to k bytes are taken from the
input into the front of the buffer; on truncation the tail of the buffer
keeps its previous contents and the error is discarded. -/
def readExact (k : ℕ) (buf input : List ℕ) : List ℕ × List ℕ :=
  let taken := input.take k
  (taken ++ buf.drop taken.length, input.drop k)

/-- Pixel::read_bytes from src/pixel.rs: ten 8-byte reads through one
reused zero-initialized buffer, then two 2-byte reads through a second
zero-initialized buffer, every read error discarded. -/
def pixelReadBytes (input : List ℕ) : PixelBits × List ℕ :=
  let z8 : List ℕ := [0, 0, 0, 0, 0, 0, 0, 0]
  let s1 := readExact 8 z8 input
  let s2 := readExact 8 s1.1 s1.2
  let s3 := readExact 8 s2.1 s2.2
  let s4 := readExact 8 s3.1 s3.2
  let s5 := readExact 8 s4.1 s4.2
  let s6 := readExact 8 s5.1 s5.2
  let s7 := readExact 8 s6.1 s6.2
  let s8 := readExact 8 s7.1 s7.2
  let s9 := readExact 8 s8.1 s8.2
  let s10 := readExact 8 s9.1 s9.2
  let s11 := readExact 8 s10.1 s10.2
  let s12 := readExact 8 s11.1 s11.2
  let z2 : List ℕ := [0, 0]
  let t1 := readExact 2 z2 s12.2
  let t2 := readExact 2 t1.1 t1.2
  (⟨fromLeBytes s1.1, fromLeBytes s2.1, fromLeBytes s3.1, fromLeBytes s4.1,
    fromLeBytes s5.1, fromLeBytes s6.1, fromLeBytes s7.1, fromLeBytes s8.1,
    fromLeBytes s9.1, fromLeBytes s10.1, fromLeBytes s11.1, fromLeBytes s12.1,
    fromLeBytes t1.1, fromLeBytes t2.1⟩,
   t2.2)

/-- The pixel-reading loop of PixelList::binary_deserialize: push one pixel
per decoded count. -/
def readPixels : ℕ → List ℕ → List PixelBits
  | 0, _ => []
  | k + 1, input =>
    let s := pixelReadBytes input
    s.1 :: readPixels k s.2

/-- PixelList::binary_deserialize from src/pixel.rs: read the 8-byte count
through a zero-initialized buffer with the error discarded, then read that
many pixels.  The function never fails; truncated input flows through the
discarded read errors. -/
def binaryDeserialize (input : List ℕ) : List PixelBits :=
  let z8 : List ℕ := [0, 0, 0, 0, 0, 0, 0, 0]
  let s := readExact 8 z8 input
  readPixels (fromLeBytes s.1) s.2

/-! ## Cluster builder (src/cluster.rs) -/

/-- Modelled from the spec: a FirePoint carries signed raster grid indices,
the radiative power, and the four geographic corner coordinates of the cell
(firepoint.rs is not under src/; the fields are the ones cluster.rs
uses). -/
structure FirePoint where
  x : ℤ
  y : ℤ
  power : F64
  lats : List F64
  lons : List F64
deriving DecidableEq, Repr

/-- The NULL_PT sentinel of Cluster::from_fire_points: raster index (0, 0)
with NaN payload. -/
def nullPt : FirePoint :=
  ⟨0, 0, F64.nan, [F64.nan, F64.nan, F64.nan, F64.nan],
   [F64.nan, F64.nan, F64.nan, F64.nan]⟩

/-- The sentinel test of Cluster::from_fire_points: a point is treated as
consumed exactly when both raster indices are zero. -/
def isNullPt (p : FirePoint) : Bool :=
  p.x == 0 && p.y == 0

/-- The membership test of the inner scan: the candidate is within
Chebyshev distance one of some already accepted raster index. -/
def chebNear (coords : List (ℤ × ℤ)) (p : FirePoint) : Bool :=
  coords.any fun c => decide (|c.1 - p.x| ≤ 1 ∧ |c.2 - p.y| ≤ 1)

/-- One pass of the inner scan of Cluster::from_fire_points over the points
after the seed: a non-null point whose raster index is Chebyshev-adjacent
to the accepted set is replaced by the sentinel and accepted, and its index
joins the accepted set for the rest of the same pass.  Returns the updated
point vector and the points accepted during the pass, in scan order. -/
def innerPass (coords : List (ℤ × ℤ)) : List FirePoint → List FirePoint × List FirePoint
  | [] => ([], [])
  | p :: rest =>
    if isNullPt p then
      let r := innerPass coords rest
      (p :: r.1, r.2)
    else if chebNear coords p then
      let r := innerPass (coords ++ [(p.x, p.y)]) rest
      (nullPt :: r.1, p :: r.2)
    else
      let r := innerPass coords rest
      (p :: r.1, r.2)

theorem innerPass_cons_null {p : FirePoint} (coords : List (ℤ × ℤ)) (rest : List FirePoint)
    (h : isNullPt p = true) :
    innerPass coords (p :: rest) =
      (p :: (innerPass coords rest).1, (innerPass coords rest).2) := by
  simp [innerPass, h]

theorem innerPass_cons_near {p : FirePoint} (coords : List (ℤ × ℤ)) (rest : List FirePoint)
    (h1 : isNullPt p = false) (h2 : chebNear coords p = true) :
    innerPass coords (p :: rest) =
      (nullPt :: (innerPass (coords ++ [(p.x, p.y)]) rest).1,
       p :: (innerPass (coords ++ [(p.x, p.y)]) rest).2) := by
  simp [innerPass, h1, h2]

theorem innerPass_cons_far {p : FirePoint} (coords : List (ℤ × ℤ)) (rest : List FirePoint)
    (h1 : isNullPt p = false) (h2 : chebNear coords p = false) :
    innerPass coords (p :: rest) =
      (p :: (innerPass coords rest).1, (innerPass coords rest).2) := by
  simp [innerPass, h1, h2]

theorem innerPass_length (coords : List (ℤ × ℤ)) (pts : List FirePoint) :
    (innerPass coords pts).1.length = pts.length := by
  induction pts generalizing coords with
  | nil => rfl
  | cons p rest ih =>
    cases h1 : isNullPt p with
    | true => simp [innerPass_cons_null coords rest h1, ih]
    | false =>
      cases h2 : chebNear coords p with
      | true => simp [innerPass_cons_near coords rest h1 h2, ih]
      | false => simp [innerPass_cons_far coords rest h1 h2, ih]

theorem innerPass_perm (coords : List (ℤ × ℤ)) (pts : List FirePoint) :
    List.Perm (pts.filter fun p => !isNullPt p)
      ((innerPass coords pts).1.filter (fun p => !isNullPt p) ++ (innerPass coords pts).2) := by
  induction pts generalizing coords with
  | nil => simp [innerPass]
  | cons p rest ih =>
    cases h1 : isNullPt p with
    | true =>
      rw [innerPass_cons_null coords rest h1]
      simpa [List.filter_cons, h1] using ih coords
    | false =>
      cases h2 : chebNear coords p with
      | true =>
        rw [innerPass_cons_near coords rest h1 h2]
        have hnull : isNullPt nullPt = true := rfl
        simp only [List.filter_cons, h1, hnull, Bool.not_false, Bool.not_true,
          if_true, if_false]
        refine List.Perm.trans (List.Perm.cons p (ih (coords ++ [(p.x, p.y)]))) ?_
        exact (@List.perm_middle _ p
          ((innerPass (coords ++ [(p.x, p.y)]) rest).1.filter fun q => !isNullPt q)
          ((innerPass (coords ++ [(p.x, p.y)]) rest).2)).symm
      | false =>
        rw [innerPass_cons_far coords rest h1 h2]
        simp only [List.filter_cons, h1, Bool.not_false, if_true]
        exact List.Perm.cons p (ih coords)

theorem innerPass_measure (coords : List (ℤ × ℤ)) (pts : List FirePoint) :
    (pts.filter (fun p => !isNullPt p)).length =
      ((innerPass coords pts).1.filter (fun p => !isNullPt p)).length +
        (innerPass coords pts).2.length := by
  have h := (innerPass_perm coords pts).length_eq
  simpa using h

/-- The repeat-until-stable inner loop of Cluster::from_fire_points: run
passes over the remaining points, growing the accepted index set, until a
pass accepts nothing. -/
def innerLoop (coords : List (ℤ × ℤ)) (pts : List FirePoint) :
    List FirePoint × List FirePoint :=
  if (innerPass coords pts).2 = [] then ((innerPass coords pts).1, [])
  else
    ((innerLoop (coords ++ (innerPass coords pts).2.map fun p => (p.x, p.y))
        (innerPass coords pts).1).1,
     (innerPass coords pts).2 ++
       (innerLoop (coords ++ (innerPass coords pts).2.map fun p => (p.x, p.y))
          (innerPass coords pts).1).2)
termination_by (pts.filter (fun p => !isNullPt p)).length
decreasing_by
  have hm := innerPass_measure coords pts
  rename_i hne
  have hlen : 1 ≤ (innerPass coords pts).2.length := by
    rcases hq : (innerPass coords pts).2 with _ | ⟨a, b⟩
    · exact absurd hq hne
    · simp
  omega

theorem innerLoop_length (coords : List (ℤ × ℤ)) (pts : List FirePoint) :
    (innerLoop coords pts).1.length = pts.length := by
  induction coords, pts using innerLoop.induct with
  | case1 coords pts h =>
    rw [innerLoop, if_pos h]
    exact innerPass_length coords pts
  | case2 coords pts h ih =>
    rw [innerLoop, if_neg h]
    rw [ih, innerPass_length]

theorem innerLoop_perm (coords : List (ℤ × ℤ)) (pts : List FirePoint) :
    List.Perm (pts.filter fun p => !isNullPt p)
      ((innerLoop coords pts).1.filter (fun p => !isNullPt p) ++ (innerLoop coords pts).2) := by
  induction coords, pts using innerLoop.induct with
  | case1 coords pts h =>
    have hp := innerPass_perm coords pts
    rw [innerLoop, if_pos h]
    simpa [h] using hp
  | case2 coords pts h ih =>
    have hp := innerPass_perm coords pts
    rw [innerLoop, if_neg h]
    refine hp.trans ?_
    refine List.Perm.trans (ih.append_right (innerPass coords pts).2) ?_
    rw [List.append_assoc]
    exact List.Perm.append_left _ List.perm_append_comm

/-- The per-cluster record of Cluster::from_fire_points as far as the
claims observe it: the member count, the accumulated power, and the member
points in acceptance order (the source keeps their polygons and raster
indices; the members determine both). -/
structure FireCluster where
  count : ℤ
  power : F64
  members : List FirePoint
deriving DecidableEq, Repr

/-- Cluster::from_fire_points from src/cluster.rs, on the point vector.  A
point whose raster index is (0, 0) is indistinguishable from the NULL_PT
sentinel and is skipped; any other point seeds a cluster that the inner
loop grows by Chebyshev adjacency.  Provenance fields and the perimeter
multipolygon of the source are not modelled; the member list determines
the polygons pushed. -/
def fromFirePoints : List FirePoint → List FireCluster
  | [] => []
  | p :: rest =>
    if isNullPt p then fromFirePoints rest
    else
      ⟨1 + (innerLoop [(p.x, p.y)] rest).2.length,
       (innerLoop [(p.x, p.y)] rest).2.foldl (fun s q => F64.fadd s q.power) p.power,
       p :: (innerLoop [(p.x, p.y)] rest).2⟩ ::
        fromFirePoints (innerLoop [(p.x, p.y)] rest).1
termination_by pts => pts.length
decreasing_by
  all_goals simp
  have := innerLoop_length [(p.x, p.y)] rest
  omega

/-- The member points of all clusters, in output order. -/
def clusterMembers (cs : List FireCluster) : List FirePoint :=
  (cs.map fun c => c.members).flatten

theorem fromFirePoints_members_perm (pts : List FirePoint) :
    List.Perm (clusterMembers (fromFirePoints pts)) (pts.filter fun p => !isNullPt p) := by
  induction pts using fromFirePoints.induct with
  | case1 => simp [fromFirePoints, clusterMembers]
  | case2 p rest h ih =>
    rw [fromFirePoints]
    simp only [h, if_true]
    have hp : isNullPt p = true := h
    simpa [List.filter_cons, hp] using ih
  | case3 p rest h ih =>
    rw [fromFirePoints]
    simp only [h, if_false]
    have hp : isNullPt p = false := by
      cases hb : isNullPt p
      · rfl
      · exact absurd hb h
    have hloop := (innerLoop_perm [(p.x, p.y)] rest).symm
    simp only [clusterMembers, List.map_cons, List.flatten_cons, List.filter_cons, hp,
      Bool.not_false, if_true]
    refine List.Perm.cons p ?_
    refine List.Perm.trans (List.Perm.append_left _ ih) ?_
    refine List.Perm.trans List.perm_append_comm ?_
    exact hloop

/-! ## Directory prune filter (src/bin/findfire.rs) -/

/-- All-digit integer accumulation for the model of str::parse. -/
def digitsVal : List Char → ℕ → Option ℕ
  | [], acc => some acc
  | c :: cs, acc =>
    if c.isDigit then digitsVal cs (acc * 10 + (c.toNat - 48))
    else none

/-- Model of str::parse::<i32> on short strings: an optional sign followed
by at least one digit and nothing else.  Overflow cannot occur on the
prefixes of at most four characters the directory filter parses. -/
def parseI32 : List Char → Option ℤ
  | [] => none
  | '+' :: rest =>
    match rest with
    | [] => none
    | _ => (digitsVal rest 0).map fun v => (v : ℤ)
  | '-' :: rest =>
    match rest with
    | [] => none
    | _ => (digitsVal rest 0).map fun v => -(v : ℤ)
  | s => (digitsVal s 0).map fun v => (v : ℤ)

/-- The slice-then-parse of the directory filter: the first k characters of
a component parse as an integer, provided the component is at least k
characters long. -/
def parseFirstChars (k : ℕ) (s : List Char) : Option ℤ :=
  if s.length < k then none else parseI32 (s.take k)

/-- Sequence prefix test over characters. -/
def leadsWith : List Char → List Char → Bool
  | [], _ => true
  | _ :: _, [] => false
  | a :: as1, b :: bs => a == b && leadsWith as1 bs

/-- Substring containment over characters. -/
def hasSub (pat : List Char) : List Char → Bool
  | [] => leadsWith pat []
  | s@(_ :: rest) => leadsWith pat s || hasSub pat rest

/-- Modelled from the spec: Satellite::string_contains_satellite recognizes
the G16 and G17 tokens as substrings of the path (satellite.rs is not under
src/). -/
def satRecognized (comps : List (List Char)) : Bool :=
  comps.any fun c => hasSub "G16".toList c || hasSub "G17".toList c

/-- Modelled from the spec: Sector::string_contains_sector recognizes the
FDCF, FDCC, FDCM1 and FDCM2 tokens as substrings of the path. -/
def sectorRecognized (comps : List (List Char)) : Bool :=
  comps.any fun c =>
    hasSub "FDCF".toList c || hasSub "FDCC".toList c ||
    hasSub "FDCM1".toList c || hasSub "FDCM2".toList c

/-- The component loop of create_standard_dir_filter from
src/bin/findfire.rs, with the year and day-of-year state threaded: parse
the year (first four characters, value above 2016), then the day of year
(first three characters, 1 to 366), then the hour (first two characters, 0
to 24), returning false (prune) or true (accept) as soon as a comparison
against the cutoff decides, and true when the components run out. -/
def dirGo (mrY mrD mrH : ℤ) : List (List Char) → Option ℤ → Option ℤ → Bool
  | [], _, _ => true
  | c :: rest, none, d? =>
    match parseFirstChars 4 c with
    | some v =>
      if 2016 < v then
        if v < mrY then false
        else if mrY < v then true
        else dirGo mrY mrD mrH rest (some v) d?
      else dirGo mrY mrD mrH rest none d?
    | none => dirGo mrY mrD mrH rest none d?
  | c :: rest, some y, none =>
    match parseFirstChars 3 c with
    | some v =>
      if 0 < v ∧ v < 367 then
        if y = mrY ∧ v < mrD then false
        else if y = mrY ∧ mrD < v then true
        else dirGo mrY mrD mrH rest (some y) (some v)
      else dirGo mrY mrD mrH rest (some y) none
    | none => dirGo mrY mrD mrH rest (some y) none
  | c :: rest, some y, some d =>
    match parseFirstChars 2 c with
    | some v =>
      if 0 ≤ v ∧ v < 25 then
        if y = mrY ∧ d = mrD ∧ v < mrH then false else true
      else dirGo mrY mrD mrH rest (some y) (some d)
    | none => dirGo mrY mrD mrH rest (some y) (some d)

/-- create_standard_dir_filter from src/bin/findfire.rs applied to a
directory entry, given the cutoff for the recognized satellite and sector
pair: when either token recognition fails the directory is accepted,
otherwise the component loop decides. -/
def dirFilter (mrY mrD mrH : ℤ) (comps : List (List Char)) : Bool :=
  if satRecognized comps && sectorRecognized comps then
    dirGo mrY mrD mrH comps none none
  else true

/-- Specification-side extraction of the hour component: the first
component whose two leading characters parse in 0 to 24. -/
def extractH : List (List Char) → Option ℤ
  | [] => none
  | c :: rest =>
    match parseFirstChars 2 c with
    | some v => if 0 ≤ v ∧ v < 25 then some v else extractH rest
    | none => extractH rest

/-- Specification-side extraction of the day-of-year component and the
following components. -/
def extractD : List (List Char) → Option (ℤ × List (List Char))
  | [] => none
  | c :: rest =>
    match parseFirstChars 3 c with
    | some v => if 0 < v ∧ v < 367 then some (v, rest) else extractD rest
    | none => extractD rest

/-- Specification-side extraction of the year component and the following
components. -/
def extractY : List (List Char) → Option (ℤ × List (List Char))
  | [] => none
  | c :: rest =>
    match parseFirstChars 4 c with
    | some v => if 2016 < v then some (v, rest) else extractY rest
    | none => extractY rest

/-- Specification-side reading of the directory date: the year, then the
day of year among the later components, then the hour among the components
after that. -/
def extractYDH (comps : List (List Char)) : Option ℤ × Option ℤ × Option ℤ :=
  match extractY comps with
  | none => (none, none, none)
  | some (y, r1) =>
    match extractD r1 with
    | none => (some y, none, none)
    | some (d, r2) => (some y, some d, extractH r2)

/-- The claim-side statement of the cutoff comparison: the parsed date lies
strictly before the cutoff; any missing component means the directory is
not known to be old. -/
def beforeCutoff (mrY mrD mrH : ℤ) : Option ℤ × Option ℤ × Option ℤ → Prop
  | (none, _, _) => False
  | (some y, d?, h?) =>
    y < mrY ∨
      (y = mrY ∧
        match d? with
        | none => False
        | some d =>
          d < mrD ∨
            (d = mrD ∧
              match h? with
              | none => False
              | some h => h < mrH))

theorem dirGo_hour (mrY mrD mrH : ℤ) (comps : List (List Char)) :
    (dirGo mrY mrD mrH comps (some mrY) (some mrD) = false) ↔
      (match extractH comps with
       | none => False
       | some h => h < mrH) := by
  induction comps with
  | nil => simp [dirGo, extractH]
  | cons c rest ih =>
    cases hp : parseFirstChars 2 c with
    | none => simpa [dirGo, extractH, hp] using ih
    | some v =>
      by_cases hr : 0 ≤ v ∧ v < 25
      · by_cases hv : v < mrH
        · simp [dirGo, extractH, hp, hr, hv]
        · simp [dirGo, extractH, hp, hr, hv]
      · simpa [dirGo, extractH, hp, hr] using ih

theorem dirGo_doy (mrY mrD mrH : ℤ) (comps : List (List Char)) :
    (dirGo mrY mrD mrH comps (some mrY) none = false) ↔
      (match extractD comps with
       | none => False
       | some (d, r) =>
         d < mrD ∨
           (d = mrD ∧
             match extractH r with
             | none => False
             | some h => h < mrH)) := by
  induction comps with
  | nil => simp [dirGo, extractD]
  | cons c rest ih =>
    cases hp : parseFirstChars 3 c with
    | none => simpa [dirGo, extractD, hp] using ih
    | some v =>
      by_cases hr : 0 < v ∧ v < 367
      · rcases lt_trichotomy v mrD with hv | hv | hv
        · simp [dirGo, extractD, hp, hr, hv]
        · subst hv
          have h2 : ¬(v < v) := lt_irrefl v
          simpa [dirGo, extractD, hp, hr, h2] using dirGo_hour mrY v mrH rest
        · simp [dirGo, extractD, hp, hr, hv, not_lt_of_gt hv, ne_of_gt hv]
      · simpa [dirGo, extractD, hp, hr] using ih

theorem dirGo_year (mrY mrD mrH : ℤ) (comps : List (List Char)) :
    (dirGo mrY mrD mrH comps none none = false) ↔
      beforeCutoff mrY mrD mrH (extractYDH comps) := by
  induction comps with
  | nil => simp [dirGo, extractYDH, extractY, beforeCutoff]
  | cons c rest ih =>
    cases hp : parseFirstChars 4 c with
    | none => simpa [dirGo, extractYDH, extractY, hp] using ih
    | some v =>
      by_cases hr : 2016 < v
      · have hun : extractY (c :: rest) = some (v, rest) := by simp [extractY, hp, hr]
        rcases lt_trichotomy v mrY with hv | hv | hv
        · have hL : dirGo mrY mrD mrH (c :: rest) none none = false := by
            simp [dirGo, hp, hr, hv]
          simp only [extractYDH, hun, hL]
          cases hd : extractD rest with
          | none => simp [beforeCutoff, hv]
          | some dr =>
            obtain ⟨d, r2⟩ := dr
            simp [beforeCutoff, hv]
        · subst hv
          have hL : dirGo v mrD mrH (c :: rest) none none =
              dirGo v mrD mrH rest (some v) none := by
            simp [dirGo, hp, hr, lt_self_iff_false]
          rw [hL, dirGo_doy]
          simp only [extractYDH, hun]
          cases hd : extractD rest with
          | none => simp [beforeCutoff]
          | some dr =>
            obtain ⟨d, r2⟩ := dr
            simp [beforeCutoff, lt_self_iff_false]
        · have hL : dirGo mrY mrD mrH (c :: rest) none none = true := by
            simp [dirGo, hp, hr, hv, not_lt_of_gt hv]
          simp only [extractYDH, hun, hL]
          cases hd : extractD rest with
          | none => simp [beforeCutoff, not_lt_of_gt hv, ne_of_gt hv]
          | some dr =>
            obtain ⟨d, r2⟩ := dr
            simp [beforeCutoff, not_lt_of_gt hv, ne_of_gt hv]
      · have hun : extractY (c :: rest) = extractY rest := by simp [extractY, hp, hr]
        have hL : dirGo mrY mrD mrH (c :: rest) none none =
            dirGo mrY mrD mrH rest none none := by
          simp [dirGo, hp, hr]
        rw [hL]
        refine ih.trans ?_
        simp only [extractYDH, hun]

/-! ## Codec lemmas -/

theorem leBytes_length (k v : ℕ) : (leBytes k v).length = k := by
  induction k generalizing v with
  | zero => rfl
  | succ k ih => simp [leBytes, ih]

theorem fromLeBytes_leBytes (k v : ℕ) : fromLeBytes (leBytes k v) = v % 2 ^ (8 * k) := by
  induction k generalizing v with
  | zero => simp [leBytes, fromLeBytes, Nat.mod_one]
  | succ k ih =>
    simp only [leBytes, fromLeBytes, ih]
    have h1 : 2 ^ (8 * (k + 1)) = 256 * 2 ^ (8 * k) := by ring
    rw [h1, Nat.mod_mul]

theorem readExact_round (k v : ℕ) (buf rest : List ℕ) (hb : buf.length = k) :
    readExact k buf (leBytes k v ++ rest) = (leBytes k v, rest) := by
  unfold readExact
  have hl : (leBytes k v).length = k := leBytes_length k v
  have ht := List.take_left (leBytes k v) rest
  have hd := List.drop_left (leBytes k v) rest
  rw [hl] at ht hd
  rw [ht, hd]
  simp only [hl, List.drop_eq_nil_of_le (le_of_eq hb), List.append_nil]

/-- Structural validity of a bit-pattern pixel: the twelve 64-bit fields
and the two 16-bit fields are in range. -/
def pixelValid (p : PixelBits) : Bool :=
  decide (p.ulLat < 2 ^ 64) && decide (p.ulLon < 2 ^ 64) &&
  decide (p.llLat < 2 ^ 64) && decide (p.llLon < 2 ^ 64) &&
  decide (p.lrLat < 2 ^ 64) && decide (p.lrLon < 2 ^ 64) &&
  decide (p.urLat < 2 ^ 64) && decide (p.urLon < 2 ^ 64) &&
  decide (p.power < 2 ^ 64) && decide (p.area < 2 ^ 64) &&
  decide (p.temperature < 2 ^ 64) && decide (p.scanAngle < 2 ^ 64) &&
  decide (p.maskFlag < 2 ^ 16) && decide (p.dataQualityFlag < 2 ^ 16)

theorem pixelRead_roundtrip (p : PixelBits) (rest : List ℕ) (h : pixelValid p = true) :
    pixelReadBytes (pixelWriteBytes p ++ rest) = (p, rest) := by
  obtain ⟨u1, u2, u3, u4, u5, u6, u7, u8, u9, u10, u11, u12, m1, m2⟩ := p
  simp only [pixelValid, Bool.and_eq_true, decide_eq_true_eq] at h
  simp only [pixelReadBytes, pixelWriteBytes, List.append_assoc]
  simp [readExact_round, leBytes_length, fromLeBytes_leBytes, Prod.mk.injEq,
    PixelBits.mk.injEq]
  omega

theorem specPixelRecord_eq_write (p : PixelBits) : specPixelRecord p = pixelWriteBytes p := rfl

theorem pixelWriteBytes_length (p : PixelBits) : (pixelWriteBytes p).length = 100 := by
  simp [pixelWriteBytes, leBytes_length]

theorem binarySerialize_eq (l : List PixelBits) :
    binarySerialize l = leBytes 8 l.length ++ (l.map pixelWriteBytes).flatten := by
  unfold binarySerialize
  generalize leBytes 8 l.length = init
  induction l generalizing init with
  | nil => simp
  | cons p rest ih =>
    simp only [List.foldl_cons, List.map_cons, List.flatten_cons]
    rw [ih]
    simp [List.append_assoc]

theorem foldr_append_flatten (f : PixelBits → List ℕ) (l : List PixelBits) :
    l.foldr (fun p acc => f p ++ acc) [] = (l.map f).flatten := by
  induction l with
  | nil => rfl
  | cons p rest ih => simp [ih]

theorem specBlob_eq (l : List PixelBits) : specBlob l = binarySerialize l := by
  rw [binarySerialize_eq]
  unfold specBlob
  rw [foldr_append_flatten specPixelRecord l]
  rfl

theorem binarySerialize_length (l : List PixelBits) :
    (binarySerialize l).length = 8 + 100 * l.length := by
  rw [binarySerialize_eq]
  simp only [List.length_append, leBytes_length]
  congr 1
  induction l with
  | nil => simp
  | cons p rest ih =>
    simp only [List.map_cons, List.flatten_cons, List.length_append, ih,
      pixelWriteBytes_length, List.length_cons]
    ring

theorem readPixels_roundtrip (l : List PixelBits) (rest : List ℕ)
    (h : ∀ p ∈ l, pixelValid p = true) :
    readPixels l.length ((l.map pixelWriteBytes).flatten ++ rest) = l := by
  induction l generalizing rest with
  | nil => rfl
  | cons p tl ih =>
    simp only [List.length_cons, List.map_cons, List.flatten_cons, List.append_assoc]
    rw [readPixels]
    rw [pixelRead_roundtrip p _ (h p (by simp))]
    simp only
    rw [ih _ (fun q hq => h q (by simp [hq]))]

theorem readPixels_length (k : ℕ) (input : List ℕ) : (readPixels k input).length = k := by
  induction k generalizing input with
  | zero => rfl
  | succ k ih => simp [readPixels, ih]

theorem deserialize_serialize (l : List PixelBits) (hlen : l.length < 2 ^ 64)
    (h : ∀ p ∈ l, pixelValid p = true) :
    binaryDeserialize (binarySerialize l) = l := by
  rw [binarySerialize_eq]
  show readPixels
      (fromLeBytes (readExact 8 [0, 0, 0, 0, 0, 0, 0, 0]
        (leBytes 8 l.length ++ (l.map pixelWriteBytes).flatten)).1)
      (readExact 8 [0, 0, 0, 0, 0, 0, 0, 0]
        (leBytes 8 l.length ++ (l.map pixelWriteBytes).flatten)).2 = l
  rw [readExact_round 8 l.length _ _ (by rfl)]
  simp only [fromLeBytes_leBytes]
  have hm : l.length % 2 ^ (8 * 8) = l.length := Nat.mod_eq_of_lt (by norm_num; omega)
  rw [hm]
  have := readPixels_roundtrip l [] h
  simpa using this

/-! ## Interpretation of f64 bit patterns -/

/-- Interpretation of a 64-bit pattern as an IEEE-754 double: sign,
11-bit exponent and 52-bit fraction, with the usual normal, subnormal,
infinity and NaN cases.  Finite values are exact rationals. -/
def f64Val (b : ℕ) : F64 :=
  let sign : ℕ := b / 2 ^ 63 % 2
  let ex : ℕ := b / 2 ^ 52 % 2 ^ 11
  let frac : ℕ := b % 2 ^ 52
  if ex = 2047 then
    if frac = 0 then (if sign = 1 then F64.ninf else F64.pinf) else F64.nan
  else
    let mag : Q :=
      if ex = 0 then ⟨(frac : ℤ), 2 ^ 1074 - 1⟩
      else if 1075 ≤ ex then ⟨((2 ^ 52 + frac : ℕ) : ℤ) * 2 ^ (ex - 1075), 0⟩
      else ⟨((2 ^ 52 + frac : ℕ) : ℤ), 2 ^ (1075 - ex) - 1⟩
    F64.fin (if sign = 1 then -mag else mag)

/-- Finiteness of an interpreted value. -/
def isFinVal : F64 → Bool
  | F64.fin _ => true
  | _ => false

/-- Modelled from the spec: the approximate closeness of two interpreted
doubles, following Coord.is_close on finite values; any comparison
involving NaN or an infinity is false, as the IEEE comparison underneath
is. -/
def isCloseF (a b : F64) (e : Q) : Bool :=
  match a, b with
  | F64.fin x, F64.fin y => decide (Q.qabs (x - y) < e)
  | _, _ => false

/-- Pixel::approx_equal read on the bit-pattern view: corner-wise
closeness of the interpreted corner coordinates, in the comparison order
of the source (ul, ur, lr, ll). -/
def approxEqualBits (p q : PixelBits) (e : Q) : Bool :=
  isCloseF (f64Val p.ulLat) (f64Val q.ulLat) e &&
  isCloseF (f64Val p.ulLon) (f64Val q.ulLon) e &&
  isCloseF (f64Val p.urLat) (f64Val q.urLat) e &&
  isCloseF (f64Val p.urLon) (f64Val q.urLon) e &&
  isCloseF (f64Val p.lrLat) (f64Val q.lrLat) e &&
  isCloseF (f64Val p.lrLon) (f64Val q.lrLon) e &&
  isCloseF (f64Val p.llLat) (f64Val q.llLat) e &&
  isCloseF (f64Val p.llLon) (f64Val q.llLon) e

/-- All eight corner coordinates of a bit-pattern pixel interpret to
finite doubles.  This is the Coord invariant of the data model (latitudes
and longitudes are finite degrees). -/
def cornersFinite (p : PixelBits) : Bool :=
  isFinVal (f64Val p.ulLat) && isFinVal (f64Val p.ulLon) &&
  isFinVal (f64Val p.urLat) && isFinVal (f64Val p.urLon) &&
  isFinVal (f64Val p.lrLat) && isFinVal (f64Val p.lrLon) &&
  isFinVal (f64Val p.llLat) && isFinVal (f64Val p.llLon)

/-- The machine epsilon of f64, 2 to the power -52. -/
def machineEps : Q := ⟨1, 2 ^ 52 - 1⟩

theorem machineEps_pos : (0 : Q) < machineEps := by
  rw [Q.lt_iff]
  show Q.toRat 0 < Q.toRat machineEps
  rw [Q.toRat_ofNat, machineEps, Q.toRat_mk]
  positivity

theorem isCloseF_self (v : F64) (e : Q) (hf : isFinVal v = true) (he : (0 : Q) < e) :
    isCloseF v v e = true := by
  cases v with
  | fin x =>
    simp only [isCloseF, decide_eq_true_eq]
    rw [Q.lt_iff, Q.toRat_qabs, Q.toRat_sub, sub_self, abs_zero]
    rw [Q.lt_iff, Q.toRat_ofNat] at he
    simpa using he
  | pinf => exact absurd hf (by simp [isFinVal])
  | ninf => exact absurd hf (by simp [isFinVal])
  | nan => exact absurd hf (by simp [isFinVal])

theorem approxEqualBits_self (p : PixelBits) (e : Q) (hf : cornersFinite p = true)
    (he : (0 : Q) < e) : approxEqualBits p p e = true := by
  simp only [cornersFinite, Bool.and_eq_true] at hf
  obtain ⟨⟨⟨⟨⟨⟨⟨h1, h2⟩, h3⟩, h4⟩, h5⟩, h6⟩, h7⟩, h8⟩ := hf
  simp only [approxEqualBits, Bool.and_eq_true]
  exact ⟨⟨⟨⟨⟨⟨⟨isCloseF_self _ e h1 he, isCloseF_self _ e h2 he⟩,
    isCloseF_self _ e h3 he⟩, isCloseF_self _ e h4 he⟩, isCloseF_self _ e h5 he⟩,
    isCloseF_self _ e h6 he⟩, isCloseF_self _ e h7 he⟩, isCloseF_self _ e h8 he⟩

/-! ## Claim theorems: binary codec -/

/-- The all-zero bit-pattern pixel: every field reads as 0.0 (or code 0). -/
def zeroPixelBits : PixelBits := ⟨0, 0, 0, 0, 0, 0, 0, 0, 0, 0, 0, 0, 0, 0⟩

/-- A sample bit-pattern pixel; the ulLat field is the pattern of 1.5. -/
def samplePixelBits : PixelBits :=
  ⟨4609434218613702656, 0, 0, 0, 0, 0, 0, 0, 0, 0, 0, 0, 10, 0⟩

theorem zeroPixelBits_finite : cornersFinite zeroPixelBits = true := by decide

/-- C1: for every PixelList (of in-range bit patterns, with the corner
coordinates finite as the Coord data model requires), deserializing the
serialized bytes yields a list of the same length whose pixels are
pairwise approx_equal to the originals at machine epsilon. -/
theorem c1_serialize_roundtrip (L : List PixelBits)
    (hlen : L.length < 2 ^ 64)
    (hval : ∀ p ∈ L, pixelValid p = true)
    (hfin : ∀ p ∈ L, cornersFinite p = true) :
    (binaryDeserialize (binarySerialize L)).length = L.length ∧
    ∀ i : ℕ,
      approxEqualBits ((binaryDeserialize (binarySerialize L)).getD i zeroPixelBits)
        (L.getD i zeroPixelBits) machineEps = true := by
  have hd := deserialize_serialize L hlen hval
  rw [hd]
  refine ⟨rfl, fun i => ?_⟩
  by_cases hi : i < L.length
  · have hmem : L.getD i zeroPixelBits ∈ L := by
      rw [List.getD_eq_getElem L zeroPixelBits hi]
      exact List.getElem_mem hi
    exact approxEqualBits_self _ machineEps (hfin _ hmem) machineEps_pos
  · rw [List.getD_eq_default L zeroPixelBits (le_of_not_lt hi)]
    exact approxEqualBits_self _ machineEps zeroPixelBits_finite machineEps_pos

/-- Witness for C1 at a concrete one-pixel list. -/
theorem c1_serialize_roundtrip_witness :
    (binaryDeserialize (binarySerialize [samplePixelBits])).length = 1 ∧
    approxEqualBits
      ((binaryDeserialize (binarySerialize [samplePixelBits])).getD 0 zeroPixelBits)
      ([samplePixelBits].getD 0 zeroPixelBits) machineEps = true := by
  have h := c1_serialize_roundtrip [samplePixelBits] (by decide) (by decide) (by decide)
  exact ⟨h.1, h.2 0⟩

/-- C3 counterexample: deserializing a truncated input (here the count
prefix of a serialized one-pixel list, with all 100 pixel bytes missing)
does not fail; it returns an ordinary one-pixel list whose pixel is built
from the zero-initialized read buffers. -/
theorem c3_counterexample :
    binaryDeserialize ((binarySerialize [samplePixelBits]).take 8) = [zeroPixelBits] := by
  decide

/-- C3 amended: deserialization of truncated input is not fatal.  The read
errors are discarded, the returned PixelList always has exactly the
decoded count of pixels whatever bytes are available, and the concrete
truncated input of count one with no pixel bytes yields the default
all-zero pixel. -/
theorem c3_deserialize_total :
    (∀ input : List ℕ,
        (binaryDeserialize input).length =
          fromLeBytes ((readExact 8 [0, 0, 0, 0, 0, 0, 0, 0] input).1)) ∧
    binaryDeserialize [1, 0, 0, 0, 0, 0, 0, 0] = [zeroPixelBits] := by
  constructor
  · intro input
    show (readPixels
        (fromLeBytes ((readExact 8 [0, 0, 0, 0, 0, 0, 0, 0] input).1))
        ((readExact 8 [0, 0, 0, 0, 0, 0, 0, 0] input).2)).length = _
    exact readPixels_length _ _
  · decide

/-- A nine-pixel list of all-zero patterns, the size of the 3 by 3 grid
scenario. -/
def nineZeroPixels : List PixelBits :=
  [zeroPixelBits, zeroPixelBits, zeroPixelBits, zeroPixelBits, zeroPixelBits,
   zeroPixelBits, zeroPixelBits, zeroPixelBits, zeroPixelBits]

/-- C9 counterexample: a one-pixel list does not serialize to 8 + 84
bytes; the record of Pixel::write_bytes holds twelve doubles and two
16-bit flags, 100 bytes. -/
theorem c9_counterexample :
    (binarySerialize [samplePixelBits]).length ≠ 8 + 84 * [samplePixelBits].length := by
  decide

/-- C9 amended: binary_serialize emits exactly the specified layout (the
8-byte little-endian count, then per pixel the corner doubles ul.lat,
ul.lon, ll.lat, ll.lon, lr.lat, lr.lon, ur.lat, ur.lon, then power, area,
temperature, scan_angle, then the two little-endian i16 flags, with no
padding and no per-pixel prefix), so the blob is 8 + 100n bytes for n
pixels (not 8 + 84n: the record holds twelve doubles, 100 bytes); a
nine-pixel list serializes to 908 bytes. -/
theorem c9_serialize_layout :
    (∀ L : List PixelBits,
        binarySerialize L = specBlob L ∧
        (binarySerialize L).length = 8 + 100 * L.length) ∧
    (binarySerialize nineZeroPixels).length = 908 := by
  refine ⟨fun L => ⟨(specBlob_eq L).symm, binarySerialize_length L⟩, ?_⟩
  have h := binarySerialize_length nineZeroPixels
  rw [h]
  rfl

/-! ## Claim theorems: cluster builder -/

/-- A genuine fire point at raster index (0, 0). -/
def originPoint : FirePoint :=
  ⟨0, 0, F64.fin 5, [F64.fin 44, F64.fin 44, F64.fin 45, F64.fin 45],
   [F64.fin (-120), F64.fin (-119), F64.fin (-119), F64.fin (-120)]⟩

/-- C2 counterexample: a fire point whose raster index is (0, 0) is
indistinguishable from the NULL_PT sentinel of Cluster::from_fire_points
and is silently dropped, so the clusters of the one-point input at (0, 0)
cover none of the input indices. -/
theorem c2_counterexample :
    ¬ List.Perm
        ((clusterMembers (fromFirePoints [originPoint])).map fun p => (p.x, p.y))
        ([originPoint].map fun p => (p.x, p.y)) := by
  have h1 : fromFirePoints [originPoint] = [] := by
    simp [fromFirePoints, isNullPt, originPoint]
  rw [h1]
  intro hcontra
  have := hcontra.length_eq
  simp [clusterMembers] at this

/-- C2 amended: for every input vector of fire points in which no point
sits at raster index (0, 0) (the sentinel value), the clusters returned by
Cluster::from_fire_points partition the input: the members of all clusters
are a permutation of the input points, and hence the multiset of member
(x, y) raster indices equals the multiset of input indices. -/
theorem c2_clusters_partition (pts : List FirePoint)
    (h : ∀ p ∈ pts, ¬(p.x = 0 ∧ p.y = 0)) :
    List.Perm (clusterMembers (fromFirePoints pts)) pts ∧
    List.Perm ((clusterMembers (fromFirePoints pts)).map fun p => (p.x, p.y))
      (pts.map fun p => (p.x, p.y)) := by
  have hfilter : pts.filter (fun p => !isNullPt p) = pts := by
    apply List.filter_eq_self.mpr
    intro p hp
    cases hb : isNullPt p
    · simp
    · exfalso
      have hxy : p.x = 0 ∧ p.y = 0 := by simpa [isNullPt] using hb
      exact h p hp hxy
  have hperm := fromFirePoints_members_perm pts
  rw [hfilter] at hperm
  exact ⟨hperm, hperm.map _⟩

/-- A sample fire point constructor for the witnesses. -/
def fpAt (x y : ℤ) : FirePoint :=
  ⟨x, y, F64.fin 1, [F64.fin 0, F64.fin 0, F64.fin 1, F64.fin 1],
   [F64.fin 0, F64.fin 1, F64.fin 1, F64.fin 0]⟩

/-- Witness for C2 at the concrete three-point input of the clustering
scenario without the origin point. -/
theorem c2_clusters_partition_witness :
    List.Perm (clusterMembers (fromFirePoints [fpAt 0 1, fpAt 2 2, fpAt 3 2]))
      [fpAt 0 1, fpAt 2 2, fpAt 3 2] := by
  exact (c2_clusters_partition [fpAt 0 1, fpAt 2 2, fpAt 3 2] (by decide)).1

/-! ## Claim theorems: directory filter -/

/-- Path components from string literals. -/
def pathComps (l : List String) : List (List Char) := l.map String.toList

/-- C5: given a recognizable satellite and sector token and the cutoff
(year, day of year, hour), the directory filter prunes exactly the
directories whose parsed date components place them strictly before the
cutoff, accepts otherwise (also when nothing parses), and on the concrete
paths of the scenario with cutoff (2021, 100, 12) it prunes 2020, 2021/099
and 2021/100/11 while accepting 2021/100/12 and 2021/101. -/
theorem c5_dir_filter_prunes :
    (∀ (mrY mrD mrH : ℤ) (comps : List (List Char)),
        (satRecognized comps && sectorRecognized comps) = true →
        (dirFilter mrY mrD mrH comps = false ↔
          beforeCutoff mrY mrD mrH (extractYDH comps))) ∧
    (∀ (mrY mrD mrH : ℤ) (comps : List (List Char)),
        (satRecognized comps && sectorRecognized comps) = false →
        dirFilter mrY mrD mrH comps = true) ∧
    dirFilter 2021 100 12 (pathComps ["archive", "G16", "ABI-L2-FDCF", "2020", "238", "15"])
        = false ∧
    dirFilter 2021 100 12 (pathComps ["archive", "G16", "ABI-L2-FDCF", "2021", "099"])
        = false ∧
    dirFilter 2021 100 12 (pathComps ["archive", "G16", "ABI-L2-FDCF", "2021", "100", "11"])
        = false ∧
    dirFilter 2021 100 12 (pathComps ["archive", "G16", "ABI-L2-FDCF", "2021", "100", "12"])
        = true ∧
    dirFilter 2021 100 12 (pathComps ["archive", "G16", "ABI-L2-FDCF", "2021", "101"])
        = true := by
  refine ⟨?_, ?_, by decide, by decide, by decide, by decide, by decide⟩
  · intro mrY mrD mrH comps hrec
    unfold dirFilter
    rw [if_pos hrec]
    exact dirGo_year mrY mrD mrH comps
  · intro mrY mrD mrH comps hrec
    unfold dirFilter
    rw [if_neg (by simp [hrec])]

/-- Witness for C5 at a concrete pruned path. -/
theorem c5_dir_filter_prunes_witness :
    dirFilter 2021 100 12 (pathComps ["archive", "G16", "ABI-L2-FDCF", "2021", "099"])
        = false ↔
      beforeCutoff 2021 100 12
        (extractYDH (pathComps ["archive", "G16", "ABI-L2-FDCF", "2021", "099"])) :=
  c5_dir_filter_prunes.1 2021 100 12 _ (by decide)

/-! ## Geometry lemmas -/

theorem boolOfIff {a b : Bool} (h : a = true ↔ b = true) : a = b := by
  cases a <;> cases b <;> simp_all

theorem qabs_sub_comm (x y : Q) : Q.qabs (x - y) = Q.qabs (y - x) := by
  show Q.qabs ⟨x.n * y.den - y.n * x.den, (x.dm + 1) * (y.dm + 1) - 1⟩ =
    Q.qabs ⟨y.n * x.den - x.n * y.den, (y.dm + 1) * (x.dm + 1) - 1⟩
  unfold Q.qabs
  refine congrArg₂ Q.mk ?_ ?_
  · exact abs_sub_comm _ _
  · rw [Nat.mul_comm]

theorem isClose_symm (a b : Coord) (e : Q) : isClose a b e = isClose b a e := by
  unfold isClose
  rw [qabs_sub_comm a.lat b.lat, qabs_sub_comm a.lon b.lon]

theorem approxEqual_symm (p q : Pixel) (e : Q) :
    Pixel.approxEqual p q e = Pixel.approxEqual q p e := by
  unfold Pixel.approxEqual
  rw [isClose_symm p.ul q.ul, isClose_symm p.ur q.ur, isClose_symm p.lr q.lr,
    isClose_symm p.ll q.ll]

theorem bboxOverlap_symm (a b : BoundingBox) (e : Q) :
    bboxOverlap a b e = bboxOverlap b a e := by
  apply boolOfIff
  simp only [bboxOverlap, Bool.and_eq_true, decide_eq_true_eq]
  tauto

theorem closeCnt_symm (p q : Pixel) (e : Q) : Pixel.closeCnt p q e = Pixel.closeCnt q p e := by
  unfold Pixel.closeCnt
  rw [isClose_symm p.ul q.ul, isClose_symm p.ul q.ur, isClose_symm p.ul q.lr,
    isClose_symm p.ul q.ll, isClose_symm p.ur q.ul, isClose_symm p.ur q.ur,
    isClose_symm p.ur q.lr, isClose_symm p.ur q.ll, isClose_symm p.lr q.ul,
    isClose_symm p.lr q.ur, isClose_symm p.lr q.lr, isClose_symm p.lr q.ll,
    isClose_symm p.ll q.ul, isClose_symm p.ll q.ur, isClose_symm p.ll q.lr,
    isClose_symm p.ll q.ll]
  ring

theorem closeToSome_eq (a : Coord) (q : Pixel) (e : Q) :
    Pixel.closeToSome a q e = Pixel.someCloseTo q a e := by
  unfold Pixel.closeToSome Pixel.someCloseTo
  rw [isClose_symm a q.ul, isClose_symm a q.ur, isClose_symm a q.lr, isClose_symm a q.ll]

theorem or8_swap : ∀ a b c d x y z w : Bool,
    (a || b || c || d || x || y || z || w) = (x || y || z || w || a || b || c || d) := by
  decide

theorem nonCloseContained_symm (p q : Pixel) (e : Q) :
    Pixel.nonCloseContained p q e = Pixel.nonCloseContained q p e := by
  unfold Pixel.nonCloseContained
  simp only [closeToSome_eq]
  exact or8_swap _ _ _ _ _ _ _ _

theorem toRat_ne_of_not_isZero {d : Q} (h : ¬ Q.isZero d = true) : Q.toRat d ≠ 0 :=
  fun hc => h ((Q.isZero_iff d).mpr hc)


theorem interDet_swap (l1 l2 : Line) : Q.toRat (interDet l2 l1) = -Q.toRat (interDet l1 l2) := by
  unfold interDet
  simp only [Q.toRat_sub, Q.toRat_mul]
  ring

theorem interT_swap (l1 l2 : Line) (h : Q.toRat (interDet l1 l2) ≠ 0) :
    Q.toRat (interT l2 l1) = Q.toRat (interU l1 l2) := by
  have hB : Q.toRat (interDet l2 l1) ≠ 0 := by
    rw [interDet_swap]
    simpa using h
  unfold interT interU
  rw [Q.toRat_div _ _ hB, Q.toRat_div _ _ h, div_eq_div_iff hB h, interDet_swap]
  simp only [Q.toRat_sub, Q.toRat_mul]
  ring

theorem interU_swap (l1 l2 : Line) (h : Q.toRat (interDet l1 l2) ≠ 0) :
    Q.toRat (interU l2 l1) = Q.toRat (interT l1 l2) := by
  have hB : Q.toRat (interDet l2 l1) ≠ 0 := by
    rw [interDet_swap]
    simpa using h
  unfold interT interU
  rw [Q.toRat_div _ _ hB, Q.toRat_div _ _ h, div_eq_div_iff hB h, interDet_swap]
  simp only [Q.toRat_sub, Q.toRat_mul]
  ring

set_option maxHeartbeats 1000000 in
theorem properCross_symm (l1 l2 : Line) (e : Q) :
    properCross l1 l2 e = properCross l2 l1 e := by
  unfold properCross lineIntersect
  by_cases hz : Q.isZero (interDet l1 l2) = true
  · have hzB : Q.isZero (interDet l2 l1) = true := by
      rw [Q.isZero_iff] at hz ⊢
      rw [interDet_swap, hz, neg_zero]
    rw [if_pos hz, if_pos hzB]
  · have hzB : ¬ Q.isZero (interDet l2 l1) = true := by
      intro hc
      rw [Q.isZero_iff, interDet_swap] at hc
      exact toRat_ne_of_not_isZero hz (by linarith)
    have hA := toRat_ne_of_not_isZero hz
    have htB := interT_swap l1 l2 hA
    have huB := interU_swap l1 l2 hA
    rw [if_neg hz, if_neg hzB]
    have hrange :
        (interT l2 l1 < -e ∨ 1 + e < interT l2 l1 ∨
            interU l2 l1 < -e ∨ 1 + e < interU l2 l1) ↔
          (interT l1 l2 < -e ∨ 1 + e < interT l1 l2 ∨
            interU l1 l2 < -e ∨ 1 + e < interU l1 l2) := by
      rw [Q.lt_iff, Q.lt_iff, Q.lt_iff, Q.lt_iff, Q.lt_iff, Q.lt_iff, Q.lt_iff, Q.lt_iff,
        htB, huB]
      tauto
    by_cases hc : (interT l1 l2 < -e ∨ 1 + e < interT l1 l2 ∨
        interU l1 l2 < -e ∨ 1 + e < interU l1 l2)
    · rw [if_pos hc, if_pos (hrange.mpr hc)]
    · rw [if_neg hc, if_neg (fun hcb => hc (hrange.mp hcb))]
      show (!decide (min (interT l1 l2) (1 - interT l1 l2) < e ∧
          min (interU l1 l2) (1 - interU l1 l2) < e)) =
        (!decide (min (interT l2 l1) (1 - interT l2 l1) < e ∧
          min (interU l2 l1) (1 - interU l2 l1) < e))
      congr 1
      apply decide_eq_decide.mpr
      have hm1 : (min (interT l2 l1) (1 - interT l2 l1) < e) ↔
          (min (interU l1 l2) (1 - interU l1 l2) < e) := by
        rw [Q.lt_iff, Q.lt_iff, Q.toRat_min, Q.toRat_min, Q.toRat_sub, Q.toRat_sub,
          Q.toRat_ofNat, htB]
      have hm2 : (min (interU l2 l1) (1 - interU l2 l1) < e) ↔
          (min (interT l1 l2) (1 - interT l1 l2) < e) := by
        rw [Q.lt_iff, Q.lt_iff, Q.toRat_min, Q.toRat_min, Q.toRat_sub, Q.toRat_sub,
          Q.toRat_ofNat, huB]
      rw [hm1, hm2]
      exact and_comm

theorem anyAny_swap (xs ys : List Line) (e : Q) :
    (xs.any fun a => ys.any fun b => properCross a b e) =
      (ys.any fun a => xs.any fun b => properCross a b e) := by
  apply boolOfIff
  simp only [List.any_eq_true]
  constructor
  · rintro ⟨a, ha, b, hb, hp⟩
    refine ⟨b, hb, a, ha, ?_⟩
    rw [properCross_symm]
    exact hp
  · rintro ⟨a, ha, b, hb, hp⟩
    refine ⟨b, hb, a, ha, ?_⟩
    rw [properCross_symm]
    exact hp

theorem isClose_lt (a b : Coord) (e : Q) (h : isClose a b e = true) :
    |Q.toRat a.lat - Q.toRat b.lat| < Q.toRat e ∧
      |Q.toRat a.lon - Q.toRat b.lon| < Q.toRat e := by
  simp only [isClose, Bool.and_eq_true, decide_eq_true_eq] at h
  obtain ⟨h1, h2⟩ := h
  rw [Q.lt_iff, Q.toRat_qabs, Q.toRat_sub] at h1 h2
  exact ⟨h1, h2⟩

theorem bb_ll_lat (p : Pixel) :
    Q.toRat p.boundingBox.ll.lat =
      min (min (min (Q.toRat p.ll.lat) (Q.toRat p.lr.lat)) (Q.toRat p.ul.lat))
        (Q.toRat p.ur.lat) := by
  simp [Pixel.boundingBox, Q.toRat_min]

theorem bb_ur_lat (p : Pixel) :
    Q.toRat p.boundingBox.ur.lat =
      max (max (max (Q.toRat p.ll.lat) (Q.toRat p.lr.lat)) (Q.toRat p.ul.lat))
        (Q.toRat p.ur.lat) := by
  simp [Pixel.boundingBox, Q.toRat_max]

theorem bb_ll_lon (p : Pixel) :
    Q.toRat p.boundingBox.ll.lon =
      min (min (min (Q.toRat p.ll.lon) (Q.toRat p.lr.lon)) (Q.toRat p.ul.lon))
        (Q.toRat p.ur.lon) := by
  simp [Pixel.boundingBox, Q.toRat_min]

theorem bb_ur_lon (p : Pixel) :
    Q.toRat p.boundingBox.ur.lon =
      max (max (max (Q.toRat p.ll.lon) (Q.toRat p.lr.lon)) (Q.toRat p.ul.lon))
        (Q.toRat p.ur.lon) := by
  simp [Pixel.boundingBox, Q.toRat_max]

theorem approxEqual_bboxOverlap (p q : Pixel) (e : Q)
    (h : Pixel.approxEqual p q e = true) :
    bboxOverlap p.boundingBox q.boundingBox e = true := by
  simp only [Pixel.approxEqual, Bool.and_eq_true] at h
  have hul := isClose_lt p.ul q.ul e h.1.1.1
  have hlat := abs_lt.mp hul.1
  have hlon := abs_lt.mp hul.2
  have hpminlat : Q.toRat p.boundingBox.ll.lat ≤ Q.toRat p.ul.lat := by
    rw [bb_ll_lat]
    exact le_trans (min_le_left _ _) (min_le_right _ _)
  have hqminlat : Q.toRat q.boundingBox.ll.lat ≤ Q.toRat q.ul.lat := by
    rw [bb_ll_lat]
    exact le_trans (min_le_left _ _) (min_le_right _ _)
  have hpmaxlat : Q.toRat p.ul.lat ≤ Q.toRat p.boundingBox.ur.lat := by
    rw [bb_ur_lat]
    exact le_trans (le_max_right _ _) (le_max_left _ _)
  have hqmaxlat : Q.toRat q.ul.lat ≤ Q.toRat q.boundingBox.ur.lat := by
    rw [bb_ur_lat]
    exact le_trans (le_max_right _ _) (le_max_left _ _)
  have hpminlon : Q.toRat p.boundingBox.ll.lon ≤ Q.toRat p.ul.lon := by
    rw [bb_ll_lon]
    exact le_trans (min_le_left _ _) (min_le_right _ _)
  have hqminlon : Q.toRat q.boundingBox.ll.lon ≤ Q.toRat q.ul.lon := by
    rw [bb_ll_lon]
    exact le_trans (min_le_left _ _) (min_le_right _ _)
  have hpmaxlon : Q.toRat p.ul.lon ≤ Q.toRat p.boundingBox.ur.lon := by
    rw [bb_ur_lon]
    exact le_trans (le_max_right _ _) (le_max_left _ _)
  have hqmaxlon : Q.toRat q.ul.lon ≤ Q.toRat q.boundingBox.ur.lon := by
    rw [bb_ur_lon]
    exact le_trans (le_max_right _ _) (le_max_left _ _)
  simp only [bboxOverlap, Bool.and_eq_true, decide_eq_true_eq]
  refine ⟨⟨⟨?_, ?_⟩, ?_⟩, ?_⟩ <;> rw [Q.le_iff, Q.toRat_add] <;> linarith

theorem isClose_self (c : Coord) (e : Q) (he : (0 : Q) < e) : isClose c c e = true := by
  have hz : ∀ x : Q, Q.qabs (x - x) < e := by
    intro x
    rw [Q.lt_iff, Q.toRat_qabs, Q.toRat_sub, sub_self, abs_zero]
    rw [Q.lt_iff, Q.toRat_ofNat] at he
    simpa using he
  simp only [isClose, Bool.and_eq_true, decide_eq_true_eq]
  exact ⟨hz c.lat, hz c.lon⟩

theorem approxEqual_self (p : Pixel) (e : Q) (he : (0 : Q) < e) :
    Pixel.approxEqual p p e = true := by
  simp only [Pixel.approxEqual, Bool.and_eq_true]
  exact ⟨⟨⟨isClose_self _ e he, isClose_self _ e he⟩, isClose_self _ e he⟩,
    isClose_self _ e he⟩

theorem overlap_symm_of_parity (p q : Pixel) (e : Q)
    (hpar : (p.corners.any fun c => Pixel.containsCoord q c e) =
      (q.corners.any fun c => Pixel.containsCoord p c e)) :
    Pixel.overlap p q e = Pixel.overlap q p e := by
  unfold Pixel.overlap
  rw [approxEqual_symm p q, bboxOverlap_symm p.boundingBox q.boundingBox,
    anyAny_swap p.edges q.edges, hpar]

theorem isAdjacentTo_symm_of_centroids (p q : Pixel) (e : Q)
    (hp : (Pixel.centroid p).isSome = true) (hq : (Pixel.centroid q).isSome = true) :
    Pixel.isAdjacentTo p q e = Pixel.isAdjacentTo q p e := by
  obtain ⟨cp, hcp⟩ := Option.isSome_iff_exists.mp hp
  obtain ⟨cq, hcq⟩ := Option.isSome_iff_exists.mp hq
  unfold Pixel.isAdjacentTo
  rw [approxEqual_symm p q, bboxOverlap_symm p.boundingBox q.boundingBox,
    closeCnt_symm p q, nonCloseContained_symm p q, hcp, hcq]
  by_cases h1 : Pixel.approxEqual q p e = true
  · rw [if_pos h1, if_pos h1]
  · rw [if_neg h1, if_neg h1]
    by_cases h2 : (!bboxOverlap q.boundingBox p.boundingBox e) = true
    · rw [if_pos h2, if_pos h2]
    · rw [if_neg h2, if_neg h2]
      by_cases h3 : (!decide (1 ≤ Pixel.closeCnt q p e ∧ Pixel.closeCnt q p e ≤ 2)) = true
      · rw [if_pos h3, if_pos h3]
      · rw [if_neg h3, if_neg h3]
        by_cases h4 : Pixel.nonCloseContained q p e = true
        · rw [if_pos h4, if_pos h4]
        · rw [if_neg h4, if_neg h4]
          by_cases h5 : Pixel.containsCoord q cp e = true
          · by_cases h6 : Pixel.containsCoord p cq e = true
            · simp [h5, h6]
            · simp [h5, h6]
          · by_cases h6 : Pixel.containsCoord p cq e = true
            · simp [h5, h6]
            · simp [h5, h6]

/-! ## Concrete pixels for counterexamples and witnesses -/

/-- The epsilon 1.0e-6 used by the callers of the pixel predicates. -/
def e6 : Q := (1 : Q) / (1000000 : Q)

/-- A 10 by 10 square pixel with zero scalar attributes. -/
def cxBig : Pixel :=
  ⟨⟨10, 0⟩, ⟨0, 0⟩, ⟨0, 10⟩, ⟨10, 10⟩, F64.fin 0, F64.fin 0, F64.fin 0, F64.fin 0, 0, 0⟩

/-- A 2 by 2 square pixel strictly inside cxBig. -/
def cxSmall : Pixel :=
  ⟨⟨6, 4⟩, ⟨4, 4⟩, ⟨4, 6⟩, ⟨6, 6⟩, F64.fin 0, F64.fin 0, F64.fin 0, F64.fin 0, 0, 0⟩

/-- The unit square pixel with corners at the origin. -/
def unitSq : Pixel :=
  ⟨⟨1, 0⟩, ⟨0, 0⟩, ⟨0, 1⟩, ⟨1, 1⟩, F64.fin 0, F64.fin 0, F64.fin 0, F64.fin 0, 0, 0⟩

/-- The unit square pixel one degree of longitude east of unitSq. -/
def eastSq : Pixel :=
  ⟨⟨1, 1⟩, ⟨0, 1⟩, ⟨0, 2⟩, ⟨1, 2⟩, F64.fin 0, F64.fin 0, F64.fin 0, F64.fin 0, 0, 0⟩

/-- C7: of the three claimed symmetries only approx_equal is symmetric
unconditionally.  is_adjacent_to is symmetric whenever both centroids are
defined, and overlap is symmetric whenever the two corner-containment
sweeps agree; the counterexample shows overlap itself is not symmetric,
because the source checks only the corners of the receiver for containment
in the argument. -/
theorem c7_symmetry (p q : Pixel) (e : Q)
    (hp : (Pixel.centroid p).isSome = true) (hq : (Pixel.centroid q).isSome = true)
    (hpar : (p.corners.any fun c => Pixel.containsCoord q c e) =
      (q.corners.any fun c => Pixel.containsCoord p c e)) :
    Pixel.approxEqual p q e = Pixel.approxEqual q p e ∧
    Pixel.overlap p q e = Pixel.overlap q p e ∧
    Pixel.isAdjacentTo p q e = Pixel.isAdjacentTo q p e :=
  ⟨approxEqual_symm p q e, overlap_symm_of_parity p q e hpar,
   isAdjacentTo_symm_of_centroids p q e hp hq⟩

/-- C7 counterexample: a pixel strictly containing another overlaps it in
one argument order only, since overlap checks containment of the corners
of the receiver in the argument but never the reverse. -/
theorem c7_counterexample :
    Pixel.overlap cxBig cxSmall e6 = false ∧ Pixel.overlap cxSmall cxBig e6 = true := by
  decide

theorem c7_symmetry_witness :
    ((Pixel.centroid unitSq).isSome = true ∧ (Pixel.centroid eastSq).isSome = true ∧
      (unitSq.corners.any fun c => Pixel.containsCoord eastSq c e6) =
        (eastSq.corners.any fun c => Pixel.containsCoord unitSq c e6)) ∧
    (Pixel.approxEqual unitSq eastSq e6 = Pixel.approxEqual eastSq unitSq e6 ∧
     Pixel.overlap unitSq eastSq e6 = Pixel.overlap eastSq unitSq e6 ∧
     Pixel.isAdjacentTo unitSq eastSq e6 = Pixel.isAdjacentTo eastSq unitSq e6) :=
  ⟨⟨by decide, by decide, by decide⟩,
   c7_symmetry unitSq eastSq e6 (by decide) (by decide) (by decide)⟩

/-- C6: the fast path of is_adjacent_to_or_overlaps is sound in one
direction: whenever overlap holds or is_adjacent_to answers true, the
combined predicate answers true.  The claimed equivalence fails in the
other direction: the fast path also answers true when a corner of the
argument is contained in the receiver, a case both overlap and
is_adjacent_to miss, as the counterexample shows. -/
theorem c6_fast_path (p q : Pixel) (e : Q)
    (h : Pixel.overlap p q e = true ∨ Pixel.isAdjacentTo p q e = some true) :
    Pixel.isAdjacentToOrOverlaps p q e = some true := by
  by_cases h1 : (!bboxOverlap p.boundingBox q.boundingBox e) = true
  · exfalso
    have hbb : bboxOverlap p.boundingBox q.boundingBox e = false := by
      cases hb : bboxOverlap p.boundingBox q.boundingBox e
      · rfl
      · rw [hb] at h1
        exact absurd h1 (by decide)
    rcases h with hov | hadj
    · simp only [Pixel.overlap, hbb, Bool.false_and, Bool.or_false] at hov
      have := approxEqual_bboxOverlap p q e hov
      rw [this] at hbb
      exact absurd hbb (by decide)
    · by_cases ha : Pixel.approxEqual p q e = true
      · have := approxEqual_bboxOverlap p q e ha
        rw [this] at hbb
        exact absurd hbb (by decide)
      · unfold Pixel.isAdjacentTo at hadj
        rw [if_neg ha, if_pos h1] at hadj
        exact absurd hadj (by simp)
  · unfold Pixel.isAdjacentToOrOverlaps
    rw [if_neg h1]
    by_cases h2 : 1 < Pixel.closeCnt p q e
    · rw [if_pos h2]
    · rw [if_neg h2]
      by_cases h3 : (p.corners.any fun c => Pixel.containsCoord q c e) = true
      · rw [if_pos h3]
      · rw [if_neg h3]
        by_cases h4 : (q.corners.any fun c => Pixel.containsCoord p c e) = true
        · rw [if_pos h4]
        · rw [if_neg h4]
          by_cases h5 : Pixel.overlap p q e = true
          · rw [if_pos h5]
          · rw [if_neg h5]
            rcases h with hov | hadj
            · exact absurd hov h5
            · exact hadj

/-- C6 counterexample: for the containing pixel as receiver the combined
predicate answers true although overlap is false and is_adjacent_to answers
false, so the fast path is not equivalent to the fallback disjunction. -/
theorem c6_counterexample :
    Pixel.isAdjacentToOrOverlaps cxBig cxSmall e6 = some true ∧
    Pixel.overlap cxBig cxSmall e6 = false ∧
    Pixel.isAdjacentTo cxBig cxSmall e6 = some false := by
  decide

theorem c6_fast_path_witness :
    (Pixel.overlap cxSmall cxBig e6 = true ∨
      Pixel.isAdjacentTo cxSmall cxBig e6 = some true) ∧
    Pixel.isAdjacentToOrOverlaps cxSmall cxBig e6 = some true :=
  ⟨Or.inl (by decide), c6_fast_path cxSmall cxBig e6 (Or.inl (by decide))⟩

/-- C8: for every pixel and every positive epsilon, approx_equal is
reflexive, overlap of a pixel with itself is true, and is_adjacent_to of a
pixel with itself answers false (through its approx_equal early return). -/
theorem c8_reflexive (p : Pixel) (e : Q) (he : (0 : Q) < e) :
    Pixel.approxEqual p p e = true ∧ Pixel.overlap p p e = true ∧
      Pixel.isAdjacentTo p p e = some false := by
  have ha := approxEqual_self p e he
  refine ⟨ha, ?_, ?_⟩
  · simp [Pixel.overlap, ha]
  · simp [Pixel.isAdjacentTo, ha]

theorem c8_reflexive_witness :
    (0 : Q) < e6 ∧
    (Pixel.approxEqual unitSq unitSq e6 = true ∧ Pixel.overlap unitSq unitSq e6 = true ∧
      Pixel.isAdjacentTo unitSq unitSq e6 = some false) :=
  ⟨by decide, c8_reflexive unitSq e6 (by decide)⟩

/-! ## The keep filter characterization (C4) -/

theorem qmax_lt_iff (a q b : Q) : max a q < b ↔ a < b ∧ q < b := by
  rw [Q.lt_iff, Q.lt_iff, Q.lt_iff, Q.toRat_max]
  exact max_lt_iff

theorem foldl_fmax_fin (b : Q) :
    ∀ (l : List F64) (a : Q), (∀ x ∈ l, ∃ q : Q, x = F64.fin q) →
      (F64.flt (l.foldl F64.fmax (F64.fin a)) (F64.fin b) = true ↔
        (a < b ∧ ∀ x ∈ l, F64.flt x (F64.fin b) = true)) := by
  intro l
  induction l with
  | nil =>
    intro a _
    simp [F64.flt]
  | cons x rest ih =>
    intro a hl
    obtain ⟨q, hq⟩ := hl x (List.mem_cons_self x rest)
    subst hq
    have hrest : ∀ y ∈ rest, ∃ r : Q, y = F64.fin r :=
      fun y hy => hl y (List.mem_cons_of_mem _ hy)
    have hstep : List.foldl F64.fmax (F64.fin a) (F64.fin q :: rest) =
        List.foldl F64.fmax (F64.fin (max a q)) rest := rfl
    rw [hstep, ih (max a q) hrest]
    simp only [List.mem_cons, forall_eq_or_imp, F64.flt, decide_eq_true_eq]
    constructor
    · rintro ⟨hm, hr⟩
      have hmm := (qmax_lt_iff a q b).mp hm
      exact ⟨hmm.1, hmm.2, hr⟩
    · rintro ⟨ha, hq2, hr⟩
      exact ⟨(qmax_lt_iff a q b).mpr ⟨ha, hq2⟩, hr⟩

theorem foldl_fmax_ninf (b : Q) (l : List F64) (hl : ∀ x ∈ l, ∃ q : Q, x = F64.fin q) :
    F64.flt (l.foldl F64.fmax F64.ninf) (F64.fin b) = true ↔
      ∀ x ∈ l, F64.flt x (F64.fin b) = true := by
  cases l with
  | nil => simp [F64.flt]
  | cons x rest =>
    obtain ⟨q, hq⟩ := hl x (List.mem_cons_self x rest)
    subst hq
    have hrest : ∀ y ∈ rest, ∃ r : Q, y = F64.fin r :=
      fun y hy => hl y (List.mem_cons_of_mem _ hy)
    have hstep : List.foldl F64.fmax F64.ninf (F64.fin q :: rest) =
        List.foldl F64.fmax (F64.fin q) rest := rfl
    rw [hstep, foldl_fmax_fin b rest q hrest]
    simp [F64.flt]

theorem notInfNan_fin (x : F64) (h : (!F64.isInfB x && !F64.isNanB x) = true) :
    ∃ q : Q, x = F64.fin q := by
  cases x with
  | fin q => exact ⟨q, rfl⟩
  | pinf => exact absurd h (by decide)
  | ninf => exact absurd h (by decide)
  | nan => exact absurd h (by decide)

theorem scanList_fin (pixels : List Pixel) :
    ∀ x ∈ (pixels.filter fun p => !F64.isInfB p.scanAngle && !F64.isNanB p.scanAngle).map
        (fun p => p.scanAngle), ∃ q : Q, x = F64.fin q := by
  intro x hx
  obtain ⟨p, hpf, rfl⟩ := List.mem_map.mp hx
  exact notInfNan_fin p.scanAngle (List.mem_filter.mp hpf).2

/-- C4: is_cluster_a_keeper keeps a cluster exactly when some member pixel
has a mask flag in the retained set and the maximum scan angle is strictly
below the 8.3 degree limit; the scan angle side holds in turn exactly when
every member pixel with a finite scan angle is strictly below the limit
(infinite and NaN angles are dropped by the fold, and an empty or all
non-finite list folds to negative infinity, which the limit test accepts). -/
theorem c4_keeper_iff (pixels : List Pixel) :
    (isClusterAKeeper pixels = true ↔
      (F64.flt (maximumScanAngle pixels) (F64.fin maxScanAngleLimit) = true ∧
        ∃ p ∈ pixels, maskKeep p.maskFlag = true)) ∧
    (F64.flt (maximumScanAngle pixels) (F64.fin maxScanAngleLimit) = true ↔
      ∀ p ∈ pixels, ∀ q : Q, p.scanAngle = F64.fin q → q < maxScanAngleLimit) := by
  constructor
  · simp [isClusterAKeeper, List.any_eq_true, and_comm]
  · unfold maximumScanAngle
    rw [foldl_fmax_ninf maxScanAngleLimit _ (scanList_fin pixels)]
    constructor
    · intro h p hp q hq
      have hpred : (!F64.isInfB p.scanAngle && !F64.isNanB p.scanAngle) = true := by
        rw [hq]
        rfl
      have hmem : p.scanAngle ∈
          (pixels.filter fun r => !F64.isInfB r.scanAngle && !F64.isNanB r.scanAngle).map
            (fun r => r.scanAngle) :=
        List.mem_map_of_mem _ (List.mem_filter.mpr ⟨hp, hpred⟩)
      have hflt := h p.scanAngle hmem
      rw [hq] at hflt
      simpa [F64.flt] using hflt
    · intro h x hx
      obtain ⟨p, hpf, rfl⟩ := List.mem_map.mp hx
      obtain ⟨hp, hpred⟩ := List.mem_filter.mp hpf
      obtain ⟨q, hq⟩ := notInfNan_fin p.scanAngle hpred
      rw [hq]
      simpa [F64.flt] using h p hp q hq

/-! ## Totality of the PixelList centroid (C10) -/

theorem centroidFold_isSome (l : List Pixel)
    (h : ∀ p ∈ l, (Pixel.centroid p).isSome = true) :
    ∀ s : Q × Q,
      (l.foldl
          (fun acc p =>
            match acc, p.centroid with
            | some s, some c => some (s.1 + c.lat, s.2 + c.lon)
            | _, _ => none)
          (some s)).isSome = true := by
  induction l with
  | nil =>
    intro s
    rfl
  | cons p rest ih =>
    intro s
    obtain ⟨c, hc⟩ := Option.isSome_iff_exists.mp (h p (List.mem_cons_self p rest))
    simp only [List.foldl_cons, hc]
    exact ih (fun r hr => h r (List.mem_cons_of_mem _ hr)) _

/-- C10: the PixelList centroid is total.  When every member centroid is
defined (no member quadrilateral degenerates the diagonal intersection) the
sum and divide loop returns a value, and on the empty list it returns the
IEEE quotient 0.0 / 0.0 in both components, that is NaN latitude and NaN
longitude, without panicking. -/
theorem c10_centroid_total (l : List Pixel)
    (h : ∀ p ∈ l, (Pixel.centroid p).isSome = true) :
    (pixelListCentroid l).isSome = true ∧
      pixelListCentroid ([] : List Pixel) = some (F64.nan, F64.nan) := by
  constructor
  · unfold pixelListCentroid
    obtain ⟨s, hs⟩ :=
      Option.isSome_iff_exists.mp (centroidFold_isSome l h ((0 : Q), (0 : Q)))
    rw [hs]
    rfl
  · rfl

theorem c10_centroid_total_witness :
    (∀ p ∈ [unitSq], (Pixel.centroid p).isSome = true) ∧
    ((pixelListCentroid [unitSq]).isSome = true ∧
      pixelListCentroid ([] : List Pixel) = some (F64.nan, F64.nan)) :=
  ⟨by decide, c10_centroid_total [unitSq] (by decide)⟩
